import Mathlib

/-!
Verification of the in-memory filesystem tree engine of the repository
`pyqt--filesystem`, which contains two variants of the same conceptual model:

* `winfilesystem.py` (the "complex" variant, namespace `Win` below):
  `FileNode`, `FileSystemModel` (a Qt item model whose index bookkeeping is
  entangled with the structural mutations), `FileEditor.save_content`, and
  `FileManager` with `_create_node`, `resolve_path`, navigation, deletion and
  renaming.
* `simplefilesystem.py` (the "simple" variant, namespace `Simple` below):
  `FileNode`, `Filesystem` with `findNode`, `addChildNode`, `onCreateFile`,
  `deleteNode`, `saveFile`.

The embedding is a shallow one: Python objects live in a heap indexed by
`Nat` identities; attribute writes are sequential heap updates, so the exact
statement order of the Python pointer surgery is preserved.  Unbounded
`while` loops and recursion over pointer chains take an explicit fuel
argument and return `none` when the fuel runs out (modelling divergence).
Wall-clock reads (`QDateTime.currentDateTime()`) are modelled by a counter
in the state that increases at every read.
-/

/-- A Python `FileNode` object of `winfilesystem.py` (lines 8–21): name, kind
flag, parent / first-child / sibling pointers (`None` = `Option.none`),
text content and the `metadata` dictionary (`created`, `modified`, `size`). -/
structure FileNode where
  name : String
  isdir : Bool
  parent : Option Nat
  child : Option Nat
  sibling_prev : Option Nat
  sibling_next : Option Nat
  content : String
  created : Nat
  modified : Nat
  size : Nat
deriving DecidableEq, Repr, Inhabited

/-- The object heap: every `Nat` identity denotes a `FileNode` object.
Objects are never reclaimed (Python's `del` only drops a local name). -/
def Heap : Type := Nat → FileNode

/-- One attribute-update statement: overwrite the object at identity `i`. -/
def writeNode (h : Heap) (i : Nat) (n : FileNode) : Heap :=
  fun j => if j = i then n else h j

/-- Python `str.split(sep)` for a one-character separator, modelled on the
character list (`"".split('/') = ['']`, `"/".split('/') = ['', '']`,
`"a/b".split('/') = ['a', 'b']`). -/
def pySplit (sep : Char) : List Char → List (List Char)
  | [] => [[]]
  | c :: cs =>
    if c = sep then [] :: pySplit sep cs
    else
      match pySplit sep cs with
      | s :: ss => (c :: s) :: ss
      | [] => [[c]]

/-- Python `sep.join(chunks)` for a one-character separator, on character
lists. -/
def pyJoin (sep : Char) : List (List Char) → List Char
  | [] => []
  | [x] => x
  | x :: xs => x ++ sep :: pyJoin sep xs

/-- The sibling chain starting at the pointer `start` is exactly the list
`l` of identities (following `sibling_next`, ending at `None`).  This is the
well-formedness notion used to state order-of-children properties. -/
def chainIs (h : Heap) : Option Nat → List Nat → Prop
  | start, [] => start = none
  | start, c :: cs => start = some c ∧ chainIs h (h c).sibling_next cs

/-- The fueled walk shared by every `while child: ... child = child.sibling_next`
loop that searches a sibling chain for a node with a given `name`.
`none` = fuel exhausted, `some none` = chain ended without a match,
`some (some c)` = first match. -/
def chainFindName (h : Heap) : Nat → Option Nat → String → Option (Option Nat)
  | 0, some _, _ => none
  | _, none, _ => some none
  | fuel + 1, some c, name =>
    if (h c).name = name then some (some c)
    else chainFindName h fuel (h c).sibling_next name

/-- Fueled traversal of a sibling chain into the list of its members, in
chain order.  It is the model of every read-only child iteration in the
source (`FileSystemModel.rowCount` / `index`, `addTreeItems`), i.e. the
spec's `listChildren`. -/
def listChain (h : Heap) : Nat → Option Nat → Option (List Nat)
  | _, none => some []
  | 0, some _ => none
  | fuel + 1, some c => (listChain h fuel (h c).sibling_next).map (c :: ·)

/-- `listChildren node`: the children of `node` in sibling-chain order. -/
def listChildren (h : Heap) (fuel : Nat) (i : Nat) : Option (List Nat) :=
  listChain h fuel (h i).child

/-- The errors surfaced by the source (Python exceptions and the blocking
error dialogs): `FileExistsError("名称已存在")`, `FileNotFoundError` carrying
the message path, `AttributeError` from dereferencing `None`, and the
explicit "不能删除根目录" root-deletion refusal dialog. -/
inductive PyError where
  | fileExists : PyError
  | fileNotFound : String → PyError
  | attributeError : PyError
  | rootViolation : PyError
  | parentInvalid : PyError
deriving DecidableEq, Repr

namespace Win

/-- The state of a running `FileManager` (winfilesystem.py lines 194–202)
together with its `FileSystemModel`: the heap of node objects, the next
fresh identity, the root node, `FileManager.current`,
`FileSystemModel.current` (`mcurrent`, set once in the model constructor),
the navigation stacks, and the wall clock. -/
structure FMState where
  heap : Heap
  nextId : Nat
  root : Nat
  current : Nat
  mcurrent : Nat
  history : List Nat
  future : List Nat
  clock : Nat

/-- `FileManager._create_node` (lines 259–269): allocate a `FileNode`
(its constructor reads the clock twice, for `created` and `modified`) and
append it at the tail of `parent`'s sibling chain.  Returns the new state
and the new node's identity; `none` when the `while last.sibling_next`
walk exhausts its fuel. -/
def create_node (fuel : Nat) (s : FMState) (name : String) (isdir : Bool)
    (parent : Nat) : Option (FMState × Nat) :=
  let newId := s.nextId
  let node : FileNode :=
    { name := name, isdir := isdir, parent := some parent, child := none,
      sibling_prev := none, sibling_next := none, content := "",
      created := s.clock, modified := s.clock + 1, size := 0 }
  let h := writeNode s.heap newId node
  let s1 : FMState :=
    { s with heap := h, nextId := newId + 1, clock := s.clock + 2 }
  match (h parent).child with
  | none =>
    some ({ s1 with
      heap := writeNode h parent { h parent with child := some newId } }, newId)
  | some c0 =>
    (lastSib h fuel c0).map fun last =>
      let h1 := writeNode h last { h last with sibling_next := some newId }
      let h2 := writeNode h1 newId { h1 newId with sibling_prev := some last }
      ({ s1 with heap := h2 }, newId)
where
  /-- the `last = parent.child; while last.sibling_next: last = last.sibling_next`
  walk -/
  lastSib (h : Heap) : Nat → Nat → Option Nat
    | 0, i => match (h i).sibling_next with
      | none => some i
      | some _ => none
    | fuel + 1, i => match (h i).sibling_next with
      | none => some i
      | some j => lastSib h fuel j

/-- The segment loop of `FileManager.resolve_path` (lines 278–297): `.` is
skipped, `..` moves to the parent when one exists, any other segment is
looked up in the running node's child chain, raising
`FileNotFoundError(f"路径不存在: {path}")` when absent. -/
def resolveSegs (h : Heap) (path : String) (fuel : Nat) :
    Nat → List String → Option (Except PyError Nat)
  | cur, [] => some (.ok cur)
  | cur, part :: rest =>
    if part = "." then resolveSegs h path fuel cur rest
    else if part = ".." then
      match (h cur).parent with
      | some p => resolveSegs h path fuel p rest
      | none => resolveSegs h path fuel cur rest
    else
      match chainFindName h fuel (h cur).child part with
      | none => none
      | some none => some (.error (.fileNotFound path))
      | some (some c) => resolveSegs h path fuel c rest

/-- `FileManager.resolve_path` (lines 271–297): a leading `~` is replaced by
`/Home`; a (then) leading `/` makes resolution start at the root, otherwise
at `current`; the path is split on `/` and empty segments discarded. -/
def resolve_path (fuel : Nat) (s : FMState) (path : String) :
    Option (Except PyError Nat) :=
  let pd : List Char :=
    if path.data.head? = some '~' then
      '/' :: 'H' :: 'o' :: 'm' :: 'e' :: path.data.drop 1
    else path.data
  let start := if pd.head? = some '/' then s.root else s.current
  let parts :=
    ((pySplit '/' pd).map (fun l => String.mk l)).filter (fun p => p ≠ "")
  resolveSegs s.heap (String.mk pd) fuel start parts

/-- `FileNode.full_path` (lines 23–29): climb the `parent` chain collecting
names bottom-up, then return `'/' + '/'.join(reversed(path))`, or `"/"` for
a node with no parent.  Fueled: `none` when the climb does not terminate. -/
def full_path (fuelOut : Nat) (h : Heap) (i : Nat) : Option String :=
  (climb h fuelOut i).map fun path =>
    if path ≠ [] then
      String.mk ('/' :: pyJoin '/' (path.reverse.map String.data))
    else "/"
where
  /-- the `while node.parent: path.append(node.name); node = node.parent` loop -/
  climb (h : Heap) : Nat → Nat → Option (List String)
    | 0, i => match (h i).parent with
      | none => some []
      | some _ => none
    | fuel + 1, i => match (h i).parent with
      | none => some []
      | some p => (climb h fuel p).map ((h i).name :: ·)

/-- `FileManager.navigateTree` (lines 303–310), the `navigateTo` of the
spec, invoked with the double-clicked node (`None` when the Qt index holds
no node): only for a directory node, push `current` on `history`, clear
`future`, move `current`. -/
def navigateTree (s : FMState) (node : Option Nat) : FMState :=
  match node with
  | some n =>
    if (s.heap n).isdir then
      { s with history := s.history ++ [s.current], future := [], current := n }
    else s
  | none => s

/-- `FileManager.navigateBack` (lines 327–332): Python `list.pop()` takes
the last element. -/
def navigateBack (s : FMState) : FMState :=
  match s.history.getLast? with
  | none => s
  | some n =>
    { s with future := s.future ++ [s.current], history := s.history.dropLast,
             current := n }

/-- `FileManager.navigateForward` (lines 334–339). -/
def navigateForward (s : FMState) : FMState :=
  match s.future.getLast? with
  | none => s
  | some n =>
    { s with history := s.history ++ [s.current], future := s.future.dropLast,
             current := n }

/-- `FileManager.navigateUp` (lines 341–346): if `current.parent` exists,
push `current` on `history` and move to the parent.  (Note: unlike
`navigateTree`, the `future` stack is not touched.) -/
def navigateUp (s : FMState) : FMState :=
  match (s.heap s.current).parent with
  | some p =>
    { s with history := s.history ++ [s.current], current := p }
  | none => s

/-- `FileEditor.save_content` (lines 180–192) on a node with the new editor
text: store `content`, then `metadata.update` sets `modified` from the
clock and `size` to the UTF-8 byte length of the new content.  No kind
check is performed and no error is ever raised. -/
def save_content (s : FMState) (node : Nat) (new_content : String) :
    FMState × Option PyError :=
  let h1 := writeNode s.heap node { s.heap node with content := new_content }
  let h2 := writeNode h1 node
    { h1 node with modified := s.clock, size := new_content.utf8ByteSize }
  ({ s with heap := h2, clock := s.clock + 1 }, none)

/-- `FileManager.create_item` (lines 370–387) with the dialog's name string
supplied as an argument: scan the parent's existing children for the name
(`FileExistsError` on a match, regardless of kind), else `_create_node`.
The `open_file` editor dialog opened on a freshly created file is external
UI (modelled as the user cancelling it). -/
def create_item (fuel : Nat) (s : FMState) (parent_node : Nat) (isdir : Bool)
    (name : String) : Option (FMState × Option PyError) :=
  -- `if not ok or not name: return` — an empty / cancelled dialog is a no-op
  if name = "" then some (s, none)
  else
    match chainFindName s.heap fuel (s.heap parent_node).child name with
    | none => none
    | some (some _) => some (s, some .fileExists)
    | some none =>
      (create_node fuel s name isdir parent_node).map fun (s', _) => (s', none)

/-- `FileManager.rename_item` (lines 441–456): scan `node.parent.child`'s
chain for a different sibling already called `new_name`
(`AttributeError` when `node.parent` is `None`, as for the root),
else assign `node.name`. -/
def rename_item (fuel : Nat) (s : FMState) (node : Nat) (new_name : String) :
    Option (FMState × Option PyError) :=
  if new_name = "" then some (s, none)
  else
    match (s.heap node).parent with
    | none => some (s, some .attributeError)
    | some p =>
      match scanOther s.heap fuel (s.heap p).child node new_name with
      | none => none
      | some true => some (s, some .fileExists)
      | some false =>
        let h' := writeNode s.heap node { s.heap node with name := new_name }
        some ({ s with heap := h' }, none)
where
  /-- the `while sibling: if sibling != node and sibling.name == new_name` scan -/
  scanOther (h : Heap) : Nat → Option Nat → Nat → String → Option Bool
    | _, none, _, _ => some false
    | 0, some _, _, _ => none
    | fuel + 1, some c, node, new_name =>
      if c ≠ node ∧ (h c).name = new_name then some true
      else scanOther h fuel (h c).sibling_next node new_name

/-- A `QModelIndex` as used by `FileSystemModel`: a row, a column and an
internal pointer (node identity).  The invalid index `QModelIndex()` has no
pointer; every index built here by `createIndex` carries one and a
non-negative row/column, so validity is `ptr.isSome`.  (Qt reports row and
column `-1` for the invalid index; no call site in the source reads them,
only `column > 0`, which is equally false for `0`.) -/
structure QIndex where
  row : Nat
  col : Nat
  ptr : Option Nat
deriving DecidableEq, Repr

/-- `QModelIndex()` -/
def QIndex.invalid : QIndex := ⟨0, 0, none⟩

/-- `QAbstractItemModel.createIndex(row, column, node)` -/
def createIndex (row col : Nat) (node : Nat) : QIndex := ⟨row, col, some node⟩

/-- `index.isValid()` -/
def QIndex.isValid (q : QIndex) : Bool := q.ptr.isSome

/-- `FileSystemModel.rowCount` (lines 70–79): number of children of the
index's node (of `FileSystemModel.current` for the invalid index). -/
def rowCount (h : Heap) (mcur : Nat) (fuel : Nat) (parent : QIndex) :
    Option Nat :=
  if parent.col > 0 then some 0
  else
    let parent_node := match parent.ptr with
      | some p => p
      | none => mcur
    (listChain h fuel (h parent_node).child).map List.length

/-- `QAbstractItemModel.hasIndex(row, column, parent)`: the row and column
are within the model's bounds under `parent` (Qt library semantics). -/
def hasIndex (h : Heap) (mcur : Nat) (fuel : Nat) (row col : Nat)
    (parent : QIndex) : Option Bool :=
  (rowCount h mcur fuel parent).map fun rc => row < rc && col < 4

/-- The `for _ in range(row): child = child.sibling_next if child else None`
advance of `FileSystemModel.index`. -/
def advance (h : Heap) : Nat → Option Nat → Option Nat
  | 0, c => c
  | n + 1, c =>
    advance h n (match c with
      | some c' => (h c').sibling_next
      | none => none)

/-- `FileSystemModel.index` (lines 37–45). -/
def model_index (h : Heap) (mcur : Nat) (fuel : Nat) (row col : Nat)
    (parent : QIndex) : Option QIndex :=
  (hasIndex h mcur fuel row col parent).map fun ok =>
    if !ok then QIndex.invalid
    else
      let parent_node := match parent.ptr with
        | some p => p
        | none => mcur
      match advance h row (h parent_node).child with
      | some c => createIndex row col c
      | none => QIndex.invalid

/-- `FileSystemModel.sibling_index` (lines 58–68): the node's position in
its parent's child chain (`0` for a parentless node or when not found). -/
def sibling_index (h : Heap) (fuel : Nat) (node : Nat) : Option Nat :=
  match (h node).parent with
  | none => some 0
  | some p => walk fuel (h p).child 0
where
  walk : Nat → Option Nat → Nat → Option Nat
    | _, none, _ => some 0
    | 0, some _, _ => none
    | fuel + 1, some c, i =>
      if c = node then some i else walk fuel (h c).sibling_next (i + 1)

/-- `FileSystemModel.parent` (lines 47–56) applied to an index: invalid
stays invalid; when the node's parent is the model's root or
`FileSystemModel.current`, the invalid index; when the node has no parent
at all, `self.sibling_index(None)` dereferences `None.parent` —
an `AttributeError`. -/
def model_parent (h : Heap) (root mcur : Nat) (fuel : Nat) (q : QIndex) :
    Option (Except PyError QIndex) :=
  match q.ptr with
  | none => some (.ok QIndex.invalid)
  | some child =>
    match (h child).parent with
    | none => some (.error .attributeError)
    | some p =>
      if p = root ∨ p = mcur then some (.ok QIndex.invalid)
      else (sibling_index h fuel p).map fun i => .ok (createIndex i 0 p)

/-- The search loop of `FileSystemModel.remove_node`
(`current = parent.child; while current and current != node`). -/
def chainContains (h : Heap) : Nat → Option Nat → Nat → Option Bool
  | _, none, _ => some false
  | 0, some _, _ => none
  | fuel + 1, some c, node =>
    if c = node then some true
    else chainContains h fuel (h c).sibling_next node

/-- `FileSystemModel.remove_node` (lines 114–140): resolve the parent node
from the index (falling back to `FileSystemModel.current` for an invalid
index), search its child chain for `node` (returning `False` untouched when
absent), then splice: `prev.sibling_next = next`; `next.sibling_prev =
prev`; `if parent.child == node: parent.child = node.sibling_next`; finally
clear `node`'s `parent`/`sibling_prev`/`sibling_next` (its `child` pointer
is left as it is).  Each Python statement reads the heap left by the
previous one. -/
def remove_node (h : Heap) (mcur : Nat) (fuel : Nat) (parent_index : QIndex)
    (node : Nat) : Option (Heap × Bool) :=
  let parent := match parent_index.ptr with
    | some p => p
    | none => mcur
  (chainContains h fuel (h parent).child node).map fun found =>
    if !found then (h, false)
    else
      let h1 := match (h node).sibling_prev with
        | some pv =>
          writeNode h pv { h pv with sibling_next := (h node).sibling_next }
        | none => h
      let h2 := match (h1 node).sibling_next with
        | some nx =>
          writeNode h1 nx { h1 nx with sibling_prev := (h1 node).sibling_prev }
        | none => h1
      let h3 :=
        if (h2 parent).child = some node then
          writeNode h2 parent { h2 parent with child := (h2 node).sibling_next }
        else h2
      let h4 := writeNode h3 node { h3 node with parent := none }
      let h5 := writeNode h4 node { h4 node with sibling_prev := none }
      let h6 := writeNode h5 node { h5 node with sibling_next := none }
      (h6, true)

mutual

/-- `FileManager._delete_node` (lines 432–439): iterate over `node.child`'s
chain (saving `sibling_next` before each recursive call), recursively
deleting each child with the index `model.index(0, 0, parent_index)`
computed on the heap current at that moment, then
`model.remove_node(parent_index, node)`.  `none` = fuel exhausted. -/
def delete_node (h : Heap) (mcur : Nat) :
    Nat → Nat → QIndex → Option Heap
  | 0, _, _ => none
  | fuel + 1, node, parent_index =>
    match delete_children h mcur fuel (h node).child parent_index with
    | none => none
    | some h' =>
      (remove_node h' mcur fuel parent_index node).map Prod.fst

/-- The `while child:` loop of `_delete_node`. -/
def delete_children (h : Heap) (mcur : Nat) :
    Nat → Option Nat → QIndex → Option Heap
  | _, none, _ => some h
  | 0, some _, _ => none
  | fuel + 1, some child, parent_index =>
    let next_child := (h child).sibling_next
    match model_index h mcur fuel 0 0 parent_index with
    | none => none
    | some idx =>
      match delete_node h mcur fuel child idx with
      | none => none
      | some h' => delete_children h' mcur fuel next_child parent_index

end

/-- `FileManager.delete_item` (lines 402–430) with the confirmation dialog's
answer supplied as `confirmYes`: refuse the root outright; ask before
deleting a non-empty directory; then (inside `try`) compute the parent's
model index, run `_delete_node`, drop the deleted node itself from both
navigation stacks, and reset `current` to the root if it was the deleted
node.  Any exception leaves the state as it was (all raising steps precede
the first mutation). -/
def delete_item (fuel : Nat) (s : FMState) (node : Nat) (confirmYes : Bool) :
    Option (FMState × Option PyError) :=
  if node = s.root then some (s, some .rootViolation)
  else if (s.heap node).isdir ∧ (s.heap node).child ≠ none ∧ ¬confirmYes then
    some (s, none)
  else
    match (s.heap node).parent with
    | none =>
      -- `self.model.sibling_index(parent)` with `parent = None` raises
      some (s, some .attributeError)
    | some parent =>
      -- Python evaluates `sibling_index(parent)` before `model.parent(...)`
      match sibling_index s.heap fuel parent with
      | none => none
      | some row =>
        match model_parent s.heap s.root s.mcurrent fuel
            (createIndex 0 0 parent) with
        | none => none
        | some (.error e) => some (s, some e)
        | some (.ok gpIdx) =>
          match model_index s.heap s.mcurrent fuel row 0 gpIdx with
          | none => none
          | some parent_index =>
            match delete_node s.heap s.mcurrent fuel node parent_index with
            | none => none
            | some h' =>
              let history' := s.history.filter (· ≠ node)
              let future' := s.future.filter (· ≠ node)
              let current' := if s.current = node then s.root else s.current
              let s' : FMState := { s with
                heap := h', history := history',
                future := future', current := current' }
              some (s', none)

end Win

namespace Simple

/-- A `FileNode` of `simplefilesystem.py` (lines 7–17): `filename`, kind
flag, the unused `i_nlink`/`adr` fields, the tree pointers and `content`
(no metadata in this variant). -/
structure SFileNode where
  filename : String
  isdir : Bool
  i_nlink : Nat
  adr : Nat
  parent : Option Nat
  child : Option Nat
  sibling_prev : Option Nat
  sibling_next : Option Nat
  content : String
deriving DecidableEq, Repr, Inhabited

/-- The simple variant's object heap. -/
def SHeap : Type := Nat → SFileNode

/-- One attribute write in the simple variant's heap. -/
def writeS (h : SHeap) (i : Nat) (n : SFileNode) : SHeap :=
  fun j => if j = i then n else h j

/-- The state of a running `Filesystem`: heap, next fresh identity, the
root node and `current_node`. -/
structure FSState where
  heap : SHeap
  nextId : Nat
  root : Nat
  current_node : Nat

/-- The `sibling = node.child; while sibling: ...` scan inside
`Filesystem.findNode`'s loop body (`some none` = the `while`'s `else:`
branch, i.e. no match). -/
def scanName (h : SHeap) : Nat → Option Nat → String → Option (Option Nat)
  | _, none, _ => some none
  | 0, some _, _ => none
  | fuel + 1, some c, name =>
    if (h c).filename = name then some (some c)
    else scanName h fuel (h c).sibling_next name

/-- One segment step of `Filesystem.findNode` (lines 114–131): first the
`if node.child and node.child.filename == name` shortcut, otherwise the
sibling scan; no match means `findNode` returns `None`. -/
def findStep (h : SHeap) (fuel : Nat) (node : Nat) (name : String) :
    Option (Option Nat) :=
  match (h node).child with
  | some c =>
    if (h c).filename = name then some (some c)
    else scanName h fuel (h node).child name
  | none => scanName h fuel none name

/-- The `for name in names` loop of `Filesystem.findNode`: empty segments
are skipped; a missing segment returns `None`.  Note that `.` and `..`
receive no special treatment: they are looked up as ordinary child
names. -/
def findSegs (h : SHeap) (fuel : Nat) : Nat → List String → Option (Option Nat)
  | node, [] => some (some node)
  | node, name :: rest =>
    if name = "" then findSegs h fuel node rest
    else
      match findStep h fuel node name with
      | none => none
      | some none => some none
      | some (some nxt) => findSegs h fuel nxt rest

/-- `Filesystem.findNode(path)`: split the path on `/` and walk the
segments from the root. -/
def findNode (h : SHeap) (root : Nat) (fuel : Nat) (path : String) :
    Option (Option Nat) :=
  findSegs h fuel root ((pySplit '/' path.data).map (fun l => String.mk l))

/-- `Filesystem.addChildNode` (lines 133–137): prepend `new_node` at the
head of `parent_node`'s child chain (`new.sibling_next = parent.child`;
`parent.child.sibling_prev = new`; `parent.child = new`). -/
def addChildNode (h : SHeap) (parent_node new_node : Nat) : SHeap :=
  let h1 := match (h parent_node).child with
    | some c0 =>
      let hA := writeS h new_node
        { h new_node with sibling_next := some c0 }
      writeS hA c0 { hA c0 with sibling_prev := some new_node }
    | none => h
  writeS h1 parent_node { h1 parent_node with child := some new_node }

/-- `Filesystem.onCreateFile` (lines 160–179) with the path line's text as
an argument: a path with a `/` picks the last segment as the file name and
resolves the rest for the parent, otherwise the whole text is the name and
the parent is `current_node`; the duplicate check is `findNode(path)` on
the whole path from the root; on success a fresh `FileNode(file_name,
False, parent_node)` is prepended via `addChildNode`.  The result's second
component reports the blocking error dialog, if any. -/
def onCreateFile (fuel : Nat) (s : FSState) (path : String) :
    Option (FSState × Option PyError) :=
  let names := (pySplit '/' path.data).map (fun l => String.mk l)
  let pickParent : Option (Option Nat) × String :=
    if names.length > 1 then
      let file_name := (names.getLast?).getD ""
      let parent_path := String.mk (pyJoin '/' (names.dropLast.map String.data))
      (findNode s.heap s.root fuel parent_path, file_name)
    else (some (some s.current_node), path)
  match pickParent with
  | (none, _) => none
  | (some parentOpt, file_name) =>
    match parentOpt with
    | some parent_node =>
      if (s.heap parent_node).isdir then
        match findNode s.heap s.root fuel path with
        | none => none
        | some (some _) => some (s, some .fileExists)
        | some none =>
          let newId := s.nextId
          let node : SFileNode :=
            { filename := file_name, isdir := false, i_nlink := 1, adr := 0,
              parent := some parent_node, child := none, sibling_prev := none,
              sibling_next := none, content := "" }
          let h := writeS s.heap newId node
          let h' := addChildNode h parent_node newId
          some ({ s with heap := h', nextId := newId + 1 }, none)
      else some (s, some .parentInvalid)
    | none => some (s, some .parentInvalid)

/-- The `while sibling and sibling.sibling_next != node` predecessor walk
of `deleteNode` (`some none` = chain exhausted, predecessor not found). -/
def findPred (h : SHeap) : Nat → Option Nat → Nat → Option (Option Nat)
  | _, none, _ => some none
  | 0, some _, _ => none
  | fuel + 1, some sib, node =>
    if (h sib).sibling_next = some node then some (some sib)
    else findPred h fuel (h sib).sibling_next node

mutual

/-- `Filesystem.deleteNode` (lines 192–213): if the node has a parent,
splice the node out of the sibling chain first (head case: move
`parent.child` to `sibling_next` and clear its `sibling_prev`; otherwise
walk for the predecessor and relink `sibling_next`/`sibling_prev`); only
then recursively delete the children, saving each `sibling_next` before
the recursive call.  The node's own pointers are never cleared (`del node`
only drops the local name). -/
def deleteNode (h : SHeap) : Nat → Nat → Option SHeap
  | 0, _ => none
  | fuel + 1, node =>
    let h1 : Option SHeap :=
      match (h node).parent with
      | none => some h
      | some par =>
        if (h par).child = some node then
          let hA := writeS h par { h par with child := (h node).sibling_next }
          match (hA node).sibling_next with
          | some nx => some (writeS hA nx { hA nx with sibling_prev := none })
          | none => some hA
        else
          match findPred h fuel ((h par).child) node with
          | none => none
          | some none => some h
          | some (some sib) =>
            let hA := writeS h sib
              { h sib with sibling_next := (h node).sibling_next }
            match (hA node).sibling_next with
            | some nx =>
              some (writeS hA nx { hA nx with sibling_prev := some sib })
            | none => some hA
    match h1 with
    | none => none
    | some h1 =>
      match (h1 node).child with
      | some c => deleteChildren h1 fuel (some c)
      | none => some h1

/-- The `sibling = node.child; while sibling:` loop of `deleteNode`. -/
def deleteChildren (h : SHeap) : Nat → Option Nat → Option SHeap
  | _, none => some h
  | 0, some _ => none
  | fuel + 1, some sib =>
    let next_sibling := (h sib).sibling_next
    match deleteNode h fuel sib with
    | none => none
    | some h' => deleteChildren h' fuel next_sibling

end

/-- `Filesystem.saveFile` (lines 238–241): store the editor text in
`content`; nothing else changes and no error is possible. -/
def saveFile (s : FSState) (node : Nat) (text : String) :
    FSState × Option PyError :=
  let h' := writeS s.heap node { s.heap node with content := text }
  ({ s with heap := h' }, none)

/-- The simple variant's `listChildren`: the child chain in order (the
traversal order of `addTreeItems`). -/
def listChain (h : SHeap) : Nat → Option Nat → Option (List Nat)
  | _, none => some []
  | 0, some _ => none
  | fuel + 1, some c => (listChain h fuel (h c).sibling_next).map (c :: ·)

/-- Children of a node in sibling-chain order. -/
def listChildren (h : SHeap) (fuel : Nat) (i : Nat) : Option (List Nat) :=
  listChain h fuel (h i).child

/-- The sibling chain starting at `start` is exactly the list `l`
(simple-variant heap). -/
def chainIs (h : SHeap) : Option Nat → List Nat → Prop
  | start, [] => start = none
  | start, c :: cs => start = some c ∧ chainIs h (h c).sibling_next cs

end Simple

/-- All identities reachable from `i` through `child`/`sibling_next`
pointers (depth-first), used to state "no destroyed node is reachable from
root". -/
def subtreeIds (h : Heap) : Nat → Nat → Option (List Nat)
  | 0, _ => none
  | fuel + 1, i => do
    let kids ← listChain h fuel (h i).child
    let subs ← kids.mapM (fun k => subtreeIds h fuel k)
    return i :: subs.flatten

/-! ### Concrete states used by counterexamples and witnesses -/

/-- Shorthand for building a complex-variant node. -/
def mkN (name : String) (isdir : Bool) (parent child prev next : Option Nat) :
    FileNode :=
  { name := name, isdir := isdir, parent := parent, child := child,
    sibling_prev := prev, sibling_next := next, content := "",
    created := 0, modified := 0, size := 0 }

/-- Complex-variant heap: root `0` → `ROOT` (1) → `a` (2) → `b` (3), and a
second child `c` (4) of `ROOT` after `a`. -/
def exH : Heap := fun i =>
  if i = 0 then mkN "" true none (some 1) none none
  else if i = 1 then mkN "ROOT" true (some 0) (some 2) none none
  else if i = 2 then mkN "a" true (some 1) (some 3) none (some 4)
  else if i = 3 then mkN "b" true (some 2) none none none
  else if i = 4 then mkN "c" true (some 1) none (some 2) none
  else mkN "?" false none none none none

/-- A `FileManager` state over `exH` whose history holds `b` (3) and whose
future holds `a` (2). -/
def exS : Win.FMState :=
  { heap := exH, nextId := 5, root := 0, current := 0, mcurrent := 0,
    history := [0, 1, 3], future := [2], clock := 10 }

/-- `exH` extended so that `c` (4, a non-head child of `ROOT`) has a child
`d` (5). -/
def exH2 : Heap := fun i =>
  if i = 5 then mkN "d" true (some 4) none none none
  else if i = 4 then mkN "c" true (some 1) (some 5) (some 2) none
  else exH i

/-- A `FileManager` state over `exH2`. -/
def exS2 : Win.FMState := { exS with heap := exH2, nextId := 6 }

/-- Shorthand for building a simple-variant node. -/
def mkS (name : String) (isdir : Bool) (parent child prev next : Option Nat) :
    Simple.SFileNode :=
  { filename := name, isdir := isdir, i_nlink := 1, adr := 0,
    parent := parent, child := child, sibling_prev := prev,
    sibling_next := next, content := "" }

/-- Simple-variant heap: root `0` ("/") → `x` (1, directory) → `a`
(2, file), and a second root child `y` (3). -/
def sH : Simple.SHeap := fun i =>
  if i = 0 then mkS "/" true none (some 1) none none
  else if i = 1 then mkS "x" true (some 0) (some 2) none (some 3)
  else if i = 2 then mkS "a" false (some 1) none none none
  else if i = 3 then mkS "y" true (some 0) none (some 1) none
  else mkS "?" false none none none none

/-- A `Filesystem` state over `sH` whose `current_node` is the directory
`x`. -/
def sS : Simple.FSState := { heap := sH, nextId := 4, root := 0, current_node := 1 }

/-- A `Filesystem` state with a bare root. -/
def sS0 : Simple.FSState :=
  { heap := fun i =>
      if i = 0 then mkS "/" true none none none none
      else mkS "?" false none none none none,
    nextId := 1, root := 0, current_node := 0 }

/-! ### An operation alphabet, for stating the all-or-nothing property -/

/-- One invocation of a mutating complex-variant operation. -/
inductive WinOp where
  | create (parent : Nat) (isdir : Bool) (name : String)
  | delete (node : Nat) (confirmYes : Bool)
  | rename (node : Nat) (new_name : String)
  | save (node : Nat) (text : String)

/-- Dispatch a `WinOp` to the corresponding source operation. -/
def Win.runOp (fuel : Nat) (s : Win.FMState) :
    WinOp → Option (Win.FMState × Option PyError)
  | .create p k n => Win.create_item fuel s p k n
  | .delete n c => Win.delete_item fuel s n c
  | .rename n m => Win.rename_item fuel s n m
  | .save n t => some (Win.save_content s n t)

/-! ### Well-formed trees, for the path round-trip property

A rose tree of identities records which finite tree a heap is supposed to
represent; `ReprT` states that the heap's pointer structure does represent
it (child chains in order, parent back-pointers, sibling names unique). -/

/-- A finite tree of node identities. -/
inductive RTree where
  | node (id : Nat) (children : List RTree)

/-- The identity at the root of the tree. -/
def RTree.rootId : RTree → Nat
  | .node i _ => i

mutual

/-- Total number of nodes in the tree. -/
def RTree.size : RTree → Nat
  | .node _ ts => 1 + RTree.sizeL ts

/-- Total number of nodes in a forest. -/
def RTree.sizeL : List RTree → Nat
  | [] => 0
  | t :: ts => RTree.size t + RTree.sizeL ts

end

mutual

/-- The heap represents the tree `t`: the node's child chain consists of
exactly the roots of `t`'s children in order, sibling names are unique,
and each child subtree is represented in turn with the correct parent
back-pointer. -/
def ReprT (h : Heap) : RTree → Prop
  | .node i ts =>
    chainIs h (h i).child (ts.map RTree.rootId) ∧
    (ts.map fun t => (h t.rootId).name).Nodup ∧
    ReprF h i ts

/-- The forest `ts` is represented, every root with parent pointer `p`. -/
def ReprF (h : Heap) (p : Nat) : List RTree → Prop
  | [] => True
  | t :: ts => (h t.rootId).parent = some p ∧ ReprT h t ∧ ReprF h p ts

end

/-- `Located h t n ns`: starting from the root of `t` and following one
child edge per name in `ns` reaches the node `n`; the names are read off
the heap. -/
inductive Located (h : Heap) : RTree → Nat → List String → Prop where
  | here (t : RTree) : Located h t t.rootId []
  | child {i : Nat} {ts : List RTree} {t : RTree} {n : Nat}
      {rest : List String} :
      t ∈ ts → Located h t n rest →
      Located h (.node i ts) n ((h t.rootId).name :: rest)

/-! ## Basic lemmas -/

/-- The `prev.sibling_next = next` statement of `remove_node` (source line
128–129), as a heap transformer. -/
def splicePrev (h : Heap) (node : Nat) : Heap :=
  match (h node).sibling_prev with
  | some pv =>
    writeNode h pv { h pv with sibling_next := (h node).sibling_next }
  | none => h

/-- The `next.sibling_prev = prev` statement (source line 130–131). -/
def spliceNext (h : Heap) (node : Nat) : Heap :=
  match (h node).sibling_next with
  | some nx =>
    writeNode h nx { h nx with sibling_prev := (h node).sibling_prev }
  | none => h

/-- The `if parent.child == node: parent.child = node.sibling_next`
statement (source line 132–133). -/
def spliceHead (h : Heap) (parent node : Nat) : Heap :=
  if (h parent).child = some node then
    writeNode h parent { h parent with child := (h node).sibling_next }
  else h

/-- `node.parent = None` (source line 135). -/
def clearParent (h : Heap) (node : Nat) : Heap :=
  writeNode h node { h node with parent := none }

/-- `node.sibling_prev = None` (source line 136). -/
def clearPrev (h : Heap) (node : Nat) : Heap :=
  writeNode h node { h node with sibling_prev := none }

/-- `node.sibling_next = None` (source line 137). -/
def clearNext (h : Heap) (node : Nat) : Heap :=
  writeNode h node { h node with sibling_next := none }

theorem writeNode_same (h : Heap) (i : Nat) (n : FileNode) :
    writeNode h i n i = n := by simp [writeNode]

theorem writeNode_other (h : Heap) (i : Nat) (n : FileNode) (j : Nat)
    (hij : j ≠ i) : writeNode h i n j = h j := by simp [writeNode, hij]

theorem writeS_same (h : Simple.SHeap) (i : Nat) (n : Simple.SFileNode) :
    Simple.writeS h i n i = n := by simp [Simple.writeS]

theorem writeS_other (h : Simple.SHeap) (i : Nat) (n : Simple.SFileNode)
    (j : Nat) (hij : j ≠ i) : Simple.writeS h i n j = h j := by
  simp [Simple.writeS, hij]

/-! ## C9: `up()` versus `navigateTo(current.parent)` -/

/-- C9 counterexample: in a state whose `future` stack is nonempty and
whose `current` has a parent, `navigateUp` does not behave as
`navigateTree` on the parent: the claim says `up()` clears the future
stack, but the code's `navigateUp` leaves it untouched, so the two results
differ. -/
theorem C9_counterexample :
    (exS.heap 2).parent = some 1 ∧
    (exS.heap 1).isdir = true ∧
    ({ exS with current := 2 } : Win.FMState).future = [2] ∧
    (Win.navigateUp { exS with current := 2 }).future = [2] ∧
    (Win.navigateTree { exS with current := 2 } (some 1)).future = [] ∧
    Win.navigateUp { exS with current := 2 } ≠
      Win.navigateTree { exS with current := 2 } (some 1) := by
  refine ⟨by decide, by decide, rfl, by decide, by decide, fun hcontra => ?_⟩
  have h2 := congrArg Win.FMState.future hcontra
  simp [Win.navigateUp, Win.navigateTree, exS, exH, mkN] at h2

/-- C9 (amended): when `current` has no parent, `up()` is a no-op; when it
has parent `p`, `up()` pushes the old `current` onto `history` and moves
`current` to `p`, leaving the `future` stack untouched; it coincides with
`navigateTo(current.parent)` exactly in the special case where the future
stack is already empty (and the parent is a directory). -/
theorem C9_up_amended (s : Win.FMState) :
    ((s.heap s.current).parent = none → Win.navigateUp s = s) ∧
    (∀ p, (s.heap s.current).parent = some p →
      Win.navigateUp s =
        { s with history := s.history ++ [s.current], current := p } ∧
      (s.future = [] → (s.heap p).isdir = true →
        Win.navigateUp s = Win.navigateTree s (some p))) := by
  refine ⟨fun hnone => ?_, fun p hp => ⟨?_, fun hf hd => ?_⟩⟩
  · simp [Win.navigateUp, hnone]
  · simp [Win.navigateUp, hp]
  · cases s with
    | mk heap nextId root current mcurrent history future clock =>
      simp only at hp hd hf
      subst hf
      simp [Win.navigateUp, Win.navigateTree, hp, hd]

/-- C9 witness: in a concrete state with empty `future`, `up()` does agree
with `navigateTo(parent)`, and in one with a parentless `current` it is a
no-op. -/
theorem C9_witness :
    Win.navigateUp { exS with current := 2, future := [] } =
      Win.navigateTree { exS with current := 2, future := [] } (some 1) ∧
    Win.navigateUp exS = exS := by
  constructor
  · exact ((C9_up_amended { exS with current := 2, future := [] }).2 1
      (by decide)).2 rfl (by decide)
  · exact (C9_up_amended exS).1 (by decide)

/-! ## C6: content update -/

/-- C6 counterexample: `save_content` on a Directory node does not fail
with a wrong-kind error — it succeeds (no error) and happily rewrites the
directory's `content` and `size`. -/
theorem C6_counterexample :
    (exS.heap 1).isdir = true ∧
    (Win.save_content exS 1 "hello").2 = none ∧
    ((Win.save_content exS 1 "hello").1.heap 1).content = "hello" ∧
    ((Win.save_content exS 1 "hello").1.heap 1).size = 5 := by
  refine ⟨by decide, rfl, by decide, by decide⟩

/-- C6 (amended): `save_content` performs no kind check and never fails; on
any node (File or Directory) it replaces `content`, sets `size` to the
UTF-8 byte length of the new content, and sets `modifiedAt` to the current
clock, which is `≥ createdAt` and `≥` the previous `modifiedAt` whenever
those were taken from earlier clock readings.  (A Directory can only reach
`save_content` through `open_file`, which silently declines to open an
editor on directories — no error is raised there either.) -/
theorem C6_save_content (s : Win.FMState) (node : Nat) (text : String)
    (hc : (s.heap node).created ≤ s.clock)
    (hm : (s.heap node).modified ≤ s.clock) :
    (Win.save_content s node text).2 = none ∧
    ((Win.save_content s node text).1.heap node).content = text ∧
    ((Win.save_content s node text).1.heap node).size = text.utf8ByteSize ∧
    ((Win.save_content s node text).1.heap node).created =
      (s.heap node).created ∧
    ((Win.save_content s node text).1.heap node).modified = s.clock ∧
    ((Win.save_content s node text).1.heap node).created ≤
      ((Win.save_content s node text).1.heap node).modified ∧
    (s.heap node).modified ≤
      ((Win.save_content s node text).1.heap node).modified := by
  simp [Win.save_content, writeNode, hc, hm]

/-- C6 witness: on the concrete file node `a`, `save_content` with
`"hello"` yields `size = 5` and a `modifiedAt` at least `createdAt`. -/
theorem C6_witness :
    (exS.heap 2).created ≤ exS.clock ∧
    (exS.heap 2).modified ≤ exS.clock ∧
    ((Win.save_content exS 2 "hello").1.heap 2).size = 5 ∧
    ((Win.save_content exS 2 "hello").1.heap 2).created ≤
      ((Win.save_content exS 2 "hello").1.heap 2).modified := by
  have h := C6_save_content exS 2 "hello" (by decide) (by decide)
  refine ⟨by decide, by decide, ?_, h.2.2.2.2.2.1⟩
  rw [h.2.2.1]; decide

/-! ## C8: protection of the root -/

/-- C8 counterexample: in the simple variant, `deleteNode(root)` does not
fail at all — it succeeds and removes every child of the root (the claim
says it must fail with a root-violation error and leave the tree
unchanged). -/
theorem C8_counterexample :
    (sH 0).parent = none ∧ (sH 0).child = some 1 ∧
    (Simple.deleteNode sH 20 0).map
        (fun h' => ((h' 0).child, Simple.listChildren h' 10 0)) =
      some (none, some []) := by
  refine ⟨rfl, rfl, by decide⟩

/-- C8 (amended): in the complex variant `delete_item(root)` is refused
with the explicit root-violation dialog and `rename_item(root, name)`
dies with an `AttributeError` (the rename code dereferences
`root.parent = None`; there is no explicit root check), both leaving the
state exactly as it was; in the simple variant `deleteNode(root)` does not
fail: it skips the splice (no parent) and proceeds straight to recursively
deleting all of the root's children. -/
theorem C8_root_protection (fuel : Nat) (s : Win.FMState) (c : Bool)
    (name : String) (hn : name ≠ "")
    (hr : (s.heap s.root).parent = none) :
    Win.delete_item fuel s s.root c = some (s, some .rootViolation) ∧
    Win.rename_item fuel s s.root name = some (s, some .attributeError) ∧
    ∀ (h : Simple.SHeap) (node fuel2 : Nat), (h node).parent = none →
      Simple.deleteNode h (fuel2 + 1) node =
        (match (h node).child with
         | some c0 => Simple.deleteChildren h fuel2 (some c0)
         | none => some h) := by
  refine ⟨?_, ?_, fun h node fuel2 hpar => ?_⟩
  · simp [Win.delete_item]
  · simp [Win.rename_item, hn, hr]
  · simp [Simple.deleteNode, hpar]

/-- C8 witness: the concrete root of `exS` can be neither deleted nor
renamed, and the concrete simple-variant root is parentless. -/
theorem C8_witness :
    Win.delete_item 30 exS exS.root true = some (exS, some .rootViolation) ∧
    Win.rename_item 30 exS exS.root "zz" = some (exS, some .attributeError) ∧
    Simple.deleteNode sH (3 + 1) 0 =
      (match (sH 0).child with
       | some c0 => Simple.deleteChildren sH 3 (some c0)
       | none => some sH) := by
  have h := C8_root_protection 30 exS true "zz" (by decide) (by decide)
  exact ⟨h.1, h.2.1, h.2.2 sH 0 3 (by decide)⟩

/-! ## C2: scrubbing the navigation stacks on deletion -/

/-- C2 counterexample: deleting `a` (2) destroys its child `b` (3) — `b`
becomes unreachable from the root — yet `b` is still on the `history`
stack afterwards: `delete_item` only filters out the deleted node itself,
not its destroyed descendants. -/
theorem C2_counterexample :
    ((Win.delete_item 30 exS 2 true).map fun p =>
      (p.2, p.1.history, (p.1.heap 3).parent, subtreeIds p.1.heap 10 p.1.root)) =
      some (none, [0, 1, 3], none, some [0, 1, 4]) := by
  decide

/-- C2 (amended): a successful confirmed `delete_item` removes exactly the
occurrences of the deleted node itself from `history` and `future`
(destroyed descendants are left on the stacks), and resets `current` to
the root only when `current` was the deleted node itself. -/
theorem C2_scrub (fuel : Nat) (s : Win.FMState) (node : Nat)
    (s' : Win.FMState)
    (hdel : Win.delete_item fuel s node true = some (s', none)) :
    s'.history = s.history.filter (· ≠ node) ∧
    s'.future = s.future.filter (· ≠ node) ∧
    s'.current = (if s.current = node then s.root else s.current) := by
  unfold Win.delete_item at hdel
  split at hdel
  · simp at hdel
  · rw [if_neg (by simp)] at hdel
    iterate 6 all_goals (try split at hdel)
    all_goals first
      | (simp_all; done)
      | (simp only [Option.some.injEq, Prod.mk.injEq, and_true] at hdel;
         subst hdel; simp_all)

/-- C2 witness: deleting the concrete node `a` (2) filters `a` out of the
stacks. -/
theorem C2_witness :
    (Win.delete_item 30 exS 2 true).map (fun p => p.1.history) =
      some (exS.history.filter (· ≠ 2)) := by
  obtain ⟨s', hs'⟩ : ∃ s', Win.delete_item 30 exS 2 true = some (s', none) :=
    ⟨_, rfl⟩
  rw [hs']
  simp [(C2_scrub 30 exS 2 s' hs').1]

/-! ## C5: failed operations leave the state untouched -/

/-- C5: every mutating operation of the complex variant that reports an
error (duplicate name on create or rename, root-violation or
`AttributeError` on delete) leaves the whole `FileManager` state exactly
as it was, and likewise for the simple variant's create (the remaining
simple-variant operations `deleteNode` and `saveFile` report no errors at
all, and path resolution in both variants is read-only by construction).
Every error check precedes the first mutation in the source. -/
theorem C5_all_or_nothing :
    (∀ (fuel : Nat) (s : Win.FMState) (op : WinOp) (s' : Win.FMState)
       (e : PyError), Win.runOp fuel s op = some (s', some e) → s' = s) ∧
    (∀ (fuel : Nat) (t : Simple.FSState) (path : String)
       (t' : Simple.FSState) (e : PyError),
       Simple.onCreateFile fuel t path = some (t', some e) → t' = t) := by
  constructor
  · intro fuel s op s' e h
    cases op with
    | create p k n =>
      unfold Win.runOp Win.create_item at h
      iterate 4 all_goals (try split at h)
      all_goals simp_all [Win.create_node]
    | delete n c =>
      unfold Win.runOp Win.delete_item at h
      iterate 8 all_goals (try split at h)
      all_goals simp_all
    | rename n m =>
      unfold Win.runOp Win.rename_item at h
      iterate 4 all_goals (try split at h)
      all_goals simp_all
    | save n t =>
      unfold Win.runOp Win.save_content at h
      simp_all
  · intro fuel t path t' e h
    unfold Simple.onCreateFile at h
    simp only [] at h
    split_ifs at h
    iterate 8 all_goals (try split at h)
    all_goals simp_all

/-- C5 witness: a concrete duplicate-name create fails in each variant and
the state is (trivially, by the theorem) unchanged. -/
theorem C5_witness : exS = exS ∧ sS = sS :=
  ⟨C5_all_or_nothing.1 30 exS (.create 1 true "a") exS .fileExists rfl,
   C5_all_or_nothing.2 20 sS "x/a" sS .fileExists rfl⟩

/-! ## Sibling-chain lemmas -/

theorem chainIs_nil (h : Heap) (s : Option Nat) :
    chainIs h s [] ↔ s = none := Iff.rfl

theorem chainIs_cons (h : Heap) (s : Option Nat) (c : Nat) (cs : List Nat) :
    chainIs h s (c :: cs) ↔
      s = some c ∧ chainIs h (h c).sibling_next cs := Iff.rfl

theorem mem_of_getLast?_eq {α : Type} :
    ∀ (l : List α) (x : α), l.getLast? = some x → x ∈ l
  | [a], x, h => by simp_all
  | a :: b :: t, x, h => by
    rw [List.getLast?_cons_cons] at h
    exact List.mem_cons_of_mem a (mem_of_getLast?_eq (b :: t) x h)

theorem chainIs_unique (h : Heap) :
    ∀ (l₁ : List Nat) (s : Option Nat) (l₂ : List Nat),
      chainIs h s l₁ → chainIs h s l₂ → l₁ = l₂ := by
  intro l₁
  induction l₁ with
  | nil =>
    intro s l₂ h₁ h₂
    rw [chainIs_nil] at h₁
    cases l₂ with
    | nil => rfl
    | cons c cs =>
      rw [chainIs_cons, h₁] at h₂
      exact absurd h₂.1 (by simp)
  | cons c cs ih =>
    intro s l₂ h₁ h₂
    rw [chainIs_cons] at h₁
    cases l₂ with
    | nil =>
      rw [chainIs_nil] at h₂
      rw [h₂] at h₁
      exact absurd h₁.1 (by simp)
    | cons d ds =>
      rw [chainIs_cons] at h₂
      obtain ⟨hc, h₁'⟩ := h₁
      obtain ⟨hd, h₂'⟩ := h₂
      obtain rfl := Option.some.inj (hc ▸ hd)
      rw [ih _ _ h₁' h₂']

theorem chainIs_of_mem (h : Heap) :
    ∀ (l : List Nat) (s : Option Nat) (c : Nat),
      chainIs h s l → c ∈ l →
      ∃ t, chainIs h (some c) (c :: t) ∧ t.length < l.length := by
  intro l
  induction l with
  | nil => intro s c _ hc; simp at hc
  | cons d ds ih =>
    intro s c hch hc
    rw [chainIs_cons] at hch
    rcases List.mem_cons.mp hc with rfl | hc
    · exact ⟨ds, (chainIs_cons h _ _ _).mpr ⟨rfl, hch.2⟩, by simp⟩
    · obtain ⟨t, ht, hlen⟩ := ih _ c hch.2 hc
      exact ⟨t, ht, Nat.lt_succ_of_lt hlen⟩

theorem chainIs_nodup (h : Heap) :
    ∀ (l : List Nat) (s : Option Nat), chainIs h s l → l.Nodup := by
  intro l
  induction l with
  | nil => intro s _; exact List.nodup_nil
  | cons c cs ih =>
    intro s hch
    rw [chainIs_cons] at hch
    refine List.nodup_cons.mpr ⟨fun hmem => ?_, ih _ hch.2⟩
    obtain ⟨t, ht, hlen⟩ := chainIs_of_mem h cs _ c hch.2 hmem
    have huniq := chainIs_unique h (c :: cs) (some c) (c :: t)
      ((chainIs_cons h _ _ _).mpr ⟨rfl, hch.2⟩) ht
    obtain rfl := (List.cons.injEq .. ▸ huniq : c = c ∧ cs = t).2
    omega

theorem chainIs_preserve (h h' : Heap)
    (l : List Nat)
    (hpres : ∀ c ∈ l, (h' c).sibling_next = (h c).sibling_next) :
    ∀ (s : Option Nat), chainIs h s l → chainIs h' s l := by
  induction l with
  | nil => intro s hs; exact hs
  | cons c cs ih =>
    intro s hch
    rw [chainIs_cons] at hch
    refine (chainIs_cons h' _ _ _).mpr ⟨hch.1, ?_⟩
    rw [hpres c (by simp)]
    exact ih (fun d hd => hpres d (by simp [hd])) _ hch.2

theorem chainFindName_spec (h : Heap) (name : String) :
    ∀ (l : List Nat) (s : Option Nat) (fuel : Nat),
      chainIs h s l → l.length ≤ fuel →
      chainFindName h fuel s name =
        some (l.find? fun c => (h c).name = name) := by
  intro l
  induction l with
  | nil =>
    intro s fuel hch _
    rw [(chainIs_nil h s).mp hch]
    cases fuel <;> rfl
  | cons c cs ih =>
    intro s fuel hch hlen
    obtain ⟨hs, hch'⟩ := (chainIs_cons h s c cs).mp hch
    subst hs
    cases fuel with
    | zero => simp at hlen
    | succ fuel =>
      rw [chainFindName]
      by_cases hn : (h c).name = name
      · simp [List.find?, hn]
      · rw [if_neg hn, ih _ fuel hch' (by simpa using hlen)]
        simp [List.find?, hn]

theorem listChain_spec (h : Heap) :
    ∀ (l : List Nat) (s : Option Nat) (fuel : Nat),
      chainIs h s l → l.length ≤ fuel → listChain h fuel s = some l := by
  intro l
  induction l with
  | nil =>
    intro s fuel hch _
    rw [(chainIs_nil h s).mp hch]
    cases fuel <;> rfl
  | cons c cs ih =>
    intro s fuel hch hlen
    obtain ⟨hs, hch'⟩ := (chainIs_cons h s c cs).mp hch
    subst hs
    cases fuel with
    | zero => simp at hlen
    | succ fuel =>
      rw [listChain, ih _ fuel hch' (by simpa using hlen)]
      rfl

theorem lastSib_spec (h : Heap) :
    ∀ (rest : List Nat) (c0 fuel : Nat),
      chainIs h (some c0) (c0 :: rest) → rest.length ≤ fuel →
      Win.create_node.lastSib h fuel c0 = (c0 :: rest).getLast? := by
  intro rest
  induction rest with
  | nil =>
    intro c0 fuel hch _
    have hnil : (h c0).sibling_next = none :=
      ((chainIs_cons h _ _ _).mp hch).2
    cases fuel <;> simp [Win.create_node.lastSib, hnil]
  | cons c1 rest ih =>
    intro c0 fuel hch hlen
    have h1 := ((chainIs_cons h _ _ _).mp hch).2
    obtain ⟨hnext, hch'⟩ := (chainIs_cons h _ _ _).mp h1
    cases fuel with
    | zero => simp at hlen
    | succ fuel =>
      rw [Win.create_node.lastSib]
      rw [hnext]
      simp only []
      rw [ih c1 fuel ((chainIs_cons h _ _ _).mpr ⟨rfl, hch'⟩)
        (by simpa using hlen)]
      rw [List.getLast?_cons_cons]

theorem chainIs_append_last (h h' : Heap) :
    ∀ (cs : List Nat) (c0 last newId : Nat),
      chainIs h (some c0) (c0 :: cs) →
      (c0 :: cs).getLast? = some last → newId ∉ c0 :: cs →
      (∀ c ∈ c0 :: cs, c ≠ last →
        (h' c).sibling_next = (h c).sibling_next) →
      (h' last).sibling_next = some newId →
      (h' newId).sibling_next = none →
      chainIs h' (some c0) ((c0 :: cs) ++ [newId]) := by
  intro cs
  induction cs with
  | nil =>
    intro c0 last newId _ hlast _ _ hlnext hnnext
    obtain rfl : last = c0 := by simp_all
    refine (chainIs_cons h' _ _ _).mpr ⟨rfl, ?_⟩
    rw [hlnext]
    exact (chainIs_cons h' _ _ _).mpr ⟨rfl, hnnext⟩
  | cons c1 cs ih =>
    intro c0 last newId hch hlast hnew hpres hlnext hnnext
    have htail := ((chainIs_cons h _ _ _).mp hch).2
    obtain ⟨hnext, hch'⟩ := (chainIs_cons h _ _ _).mp htail
    have hlast' : (c1 :: cs).getLast? = some last := by
      rwa [List.getLast?_cons_cons] at hlast
    have hc0ne : c0 ≠ last := by
      intro heq
      have hnd := chainIs_nodup h _ _ hch
      exact (List.nodup_cons.mp hnd).1
        (heq ▸ mem_of_getLast?_eq _ _ hlast')
    refine (chainIs_cons h' _ _ _).mpr ⟨rfl, ?_⟩
    rw [hpres c0 (by simp) hc0ne, hnext]
    exact ih c1 last newId ((chainIs_cons h _ _ _).mpr ⟨rfl, hch'⟩) hlast'
      (fun hm => hnew (List.mem_cons_of_mem _ hm))
      (fun d hd hdne => hpres d (List.mem_cons_of_mem _ hd) hdne)
      hlnext hnnext

theorem schainIs_nil (h : Simple.SHeap) (s : Option Nat) :
    Simple.chainIs h s [] ↔ s = none := Iff.rfl

theorem schainIs_cons (h : Simple.SHeap) (s : Option Nat) (c : Nat)
    (cs : List Nat) :
    Simple.chainIs h s (c :: cs) ↔
      s = some c ∧ Simple.chainIs h (h c).sibling_next cs := Iff.rfl

theorem schainIs_preserve (h h' : Simple.SHeap)
    (l : List Nat)
    (hpres : ∀ c ∈ l, (h' c).sibling_next = (h c).sibling_next) :
    ∀ (s : Option Nat), Simple.chainIs h s l → Simple.chainIs h' s l := by
  induction l with
  | nil => intro s hs; exact hs
  | cons c cs ih =>
    intro s hch
    rw [schainIs_cons] at hch
    refine (schainIs_cons h' _ _ _).mpr ⟨hch.1, ?_⟩
    rw [hpres c (by simp)]
    exact ih (fun d hd => hpres d (by simp [hd])) _ hch.2

theorem slistChain_spec (h : Simple.SHeap) :
    ∀ (l : List Nat) (s : Option Nat) (fuel : Nat),
      Simple.chainIs h s l → l.length ≤ fuel →
      Simple.listChain h fuel s = some l := by
  intro l
  induction l with
  | nil =>
    intro s fuel hch _
    rw [(schainIs_nil h s).mp hch]
    cases fuel <;> rfl
  | cons c cs ih =>
    intro s fuel hch hlen
    obtain ⟨hs, hch'⟩ := (schainIs_cons h s c cs).mp hch
    subst hs
    cases fuel with
    | zero => simp at hlen
    | succ fuel =>
      rw [Simple.listChain, ih _ fuel hch' (by simpa using hlen)]
      rfl

theorem create_node_appends (s : Win.FMState) (name : String) (isdir : Bool)
    (p : Nat) (l : List Nat) (fuel : Nat)
    (hch : chainIs s.heap (s.heap p).child l)
    (hfuel : l.length ≤ fuel)
    (hfresh : s.nextId ∉ l) (hfp : s.nextId ≠ p) :
    (Win.create_node fuel s name isdir p).isSome = true ∧
    ∀ s2 newId, Win.create_node fuel s name isdir p = some (s2, newId) →
      newId = s.nextId ∧ s2.nextId = s.nextId + 1 ∧ s2.root = s.root ∧
      s2.current = s.current ∧ s2.mcurrent = s.mcurrent ∧
      s2.history = s.history ∧ s2.future = s.future ∧
      s2.clock = s.clock + 2 ∧
      chainIs s2.heap (s2.heap p).child (l ++ [s.nextId]) ∧
      (s2.heap s.nextId).name = name ∧ (s2.heap s.nextId).isdir = isdir ∧
      (s2.heap s.nextId).parent = some p := by
  cases hl : l with
  | nil =>
    subst hl
    have hchild : (s.heap p).child = none := (chainIs_nil _ _).mp hch
    constructor
    · unfold Win.create_node
      simp only []
      rw [writeNode_other _ _ _ _ (Ne.symm hfp), hchild]
      rfl
    · intro s2 newId heq
      unfold Win.create_node at heq
      simp only [] at heq
      rw [writeNode_other _ _ _ _ (Ne.symm hfp), hchild] at heq
      have h12 := Option.some.inj heq
      have hs2 : s2 = _ := (congrArg Prod.fst h12).symm
      have hnew : newId = s.nextId := (congrArg Prod.snd h12).symm
      subst hs2; subst hnew
      refine ⟨rfl, rfl, rfl, rfl, rfl, rfl, rfl, rfl, ?_, ?_, ?_, ?_⟩
      · refine (chainIs_cons _ _ _ _).mpr ⟨by simp [writeNode], ?_⟩
        rw [show ((writeNode (writeNode s.heap s.nextId _) p _) s.nextId).sibling_next = none
          from by simp [writeNode, hfp]]
        exact (chainIs_nil _ _).mpr rfl
      all_goals simp [writeNode, hfp]
  | cons c0 rest =>
    subst hl
    obtain ⟨hc0, -⟩ := (chainIs_cons _ _ _ _).mp hch
    have hnewne : ∀ c ∈ c0 :: rest, c ≠ s.nextId :=
      fun c hc heq => hfresh (heq ▸ hc)
    have hch1 : chainIs (writeNode s.heap s.nextId
        { name := name, isdir := isdir, parent := some p, child := none,
          sibling_prev := none, sibling_next := none, content := "",
          created := s.clock, modified := s.clock + 1, size := 0 })
        (some c0) (c0 :: rest) := by
      refine chainIs_preserve s.heap _ _ (fun c hc => ?_) _ (hc0 ▸ hch)
      rw [writeNode_other _ _ _ _ (hnewne c hc)]
    obtain ⟨last, hlast⟩ : ∃ last, (c0 :: rest).getLast? = some last :=
      ⟨_, List.getLast?_eq_getLast_of_ne_nil (by simp)⟩
    have hlastmem := mem_of_getLast?_eq _ _ hlast
    have hlastnew : last ≠ s.nextId := hnewne last hlastmem
    constructor
    · unfold Win.create_node
      simp only []
      rw [writeNode_other _ _ _ _ (Ne.symm hfp), hc0]
      simp only []
      rw [lastSib_spec _ rest c0 fuel hch1
        (by simp at hfuel; omega), hlast]
      rfl
    · intro s2 newId heq
      unfold Win.create_node at heq
      simp only [] at heq
      rw [writeNode_other _ _ _ _ (Ne.symm hfp), hc0] at heq
      simp only [] at heq
      rw [lastSib_spec _ rest c0 fuel hch1
        (by simp at hfuel; omega), hlast] at heq
      rw [Option.map_some'] at heq
      set N : FileNode :=
        { name := name, isdir := isdir, parent := some p, child := none,
          sibling_prev := none, sibling_next := none, content := "",
          created := s.clock, modified := s.clock + 1, size := 0 } with hN
      set h1 : Heap := writeNode s.heap s.nextId N with hh1
      set h2 : Heap :=
        writeNode h1 last
          { name := (h1 last).name, isdir := (h1 last).isdir,
            parent := (h1 last).parent, child := (h1 last).child,
            sibling_prev := (h1 last).sibling_prev,
            sibling_next := some s.nextId, content := (h1 last).content,
            created := (h1 last).created, modified := (h1 last).modified,
            size := (h1 last).size } with hh2
      set h3 : Heap :=
        writeNode h2 s.nextId
          { name := (h2 s.nextId).name, isdir := (h2 s.nextId).isdir,
            parent := (h2 s.nextId).parent, child := (h2 s.nextId).child,
            sibling_prev := some last,
            sibling_next := (h2 s.nextId).sibling_next,
            content := (h2 s.nextId).content,
            created := (h2 s.nextId).created,
            modified := (h2 s.nextId).modified,
            size := (h2 s.nextId).size } with hh3
      injection heq with h12
      injection h12 with hA hB
      subst hA
      subst hB
      refine ⟨rfl, rfl, rfl, rfl, rfl, rfl, rfl, rfl, ?_, ?_, ?_, ?_⟩
      · have hpchild : (h3 p).child = some c0 := by
          rw [hh3, writeNode_other _ _ _ _ (Ne.symm hfp), hh2]
          by_cases hpl : p = last
          · subst hpl
            rw [writeNode_same]
            simp only []
            rw [hh1, writeNode_other _ _ _ _ (Ne.symm hfp), hc0]
          · rw [writeNode_other _ _ _ _ hpl, hh1,
              writeNode_other _ _ _ _ (Ne.symm hfp), hc0]
        simp only []
        rw [hpchild]
        refine chainIs_append_last h1 h3 rest c0 last s.nextId hch1 hlast
          hfresh (fun c hc hcne => ?_) ?_ ?_
        · rw [hh3, writeNode_other _ _ _ _ (hnewne c hc), hh2,
            writeNode_other _ _ _ _ hcne]
        · rw [hh3, writeNode_other _ _ _ _ hlastnew, hh2, writeNode_same]
        · rw [hh3, writeNode_same]
          simp only []
          rw [hh2, writeNode_other _ _ _ _ (Ne.symm hlastnew), hh1,
            writeNode_same]
      all_goals
        simp only []
        rw [hh3, writeNode_same]
        simp only []
        rw [hh2, writeNode_other _ _ _ _ (Ne.symm hlastnew), hh1,
          writeNode_same]

/-! ## C3: insertion order of created children -/

/-- C3 counterexample: in the simple variant, creating `f1` then `f2`
under the root yields children `[f2, f1]` — the newest node is prepended
at the head of the sibling list, so `listChildren` shows the reverse of
creation order, contradicting the claimed tail-append. -/
theorem C3_counterexample :
    ((Simple.onCreateFile 20 sS0 "f1").bind fun p1 =>
      (Simple.onCreateFile 20 p1.1 "f2").map fun p2 =>
        (p2.2, Simple.listChildren p2.1.heap 10 0,
         (p2.1.heap 1).filename, (p2.1.heap 2).filename)) =
      some (none, some [2, 1], "f1", "f2") := by decide

/-- C3 (amended): the complex variant's `create_item` does append the new
node at the tail of the parent's sibling chain (so `listChildren` reflects
creation order there), but the simple variant's `addChildNode` prepends the
new node at the head, so its children appear in reverse creation order. -/
theorem C3_insertion_order :
    (∀ (fuel : Nat) (s : Win.FMState) (p : Nat) (isdir : Bool)
       (name : String) (l : List Nat),
       chainIs s.heap (s.heap p).child l → l.length + 1 ≤ fuel →
       s.nextId ∉ l → s.nextId ≠ p → name ≠ "" →
       (∀ c ∈ l, (s.heap c).name ≠ name) →
       (Win.create_item fuel s p isdir name).isSome = true ∧
       ∀ s' e, Win.create_item fuel s p isdir name = some (s', e) →
         e = none ∧ listChildren s'.heap fuel p = some (l ++ [s.nextId]) ∧
         (s'.heap s.nextId).name = name ∧
         (s'.heap s.nextId).isdir = isdir) ∧
    (∀ (h : Simple.SHeap) (p newId : Nat) (l : List Nat) (fuel : Nat),
       Simple.chainIs h (h p).child l → l.length + 1 ≤ fuel →
       newId ∉ l → newId ≠ p → (h newId).sibling_next = none →
       Simple.listChildren (Simple.addChildNode h p newId) fuel p =
         some (newId :: l)) := by
  constructor
  · intro fuel s p isdir name l hch hfuel hfresh hfp hname hnodup
    have hfind : chainFindName s.heap fuel (s.heap p).child name
        = some none := by
      rw [chainFindName_spec s.heap name l _ fuel hch (by omega)]
      congr 1
      exact List.find?_eq_none.mpr (fun c hc => by simp [hnodup c hc])
    have hcn := create_node_appends s name isdir p l fuel hch (by omega)
      hfresh hfp
    constructor
    · unfold Win.create_item
      rw [if_neg hname, hfind]
      obtain ⟨pr, hpr⟩ := Option.isSome_iff_exists.mp hcn.1
      rw [hpr]
      rfl
    · intro s' e heq
      unfold Win.create_item at heq
      rw [if_neg hname, hfind] at heq
      cases hcase : Win.create_node fuel s name isdir p with
      | none => rw [hcase] at heq; simp at heq
      | some pr =>
        obtain ⟨s2, newId⟩ := pr
        rw [hcase, Option.map_some'] at heq
        injection heq with h12
        injection h12 with hA hB
        subst hA
        subst hB
        obtain ⟨-, -, -, -, -, -, -, -, hchain, hnm, hkind, -⟩ :=
          hcn.2 s2 newId hcase
        refine ⟨rfl, ?_, hnm, hkind⟩
        unfold listChildren
        exact listChain_spec _ _ _ fuel hchain (by simp; omega)
  · intro h p newId l fuel hch hfuel hfresh hfp hnext
    unfold Simple.listChildren
    have hc0mem : ∀ c0, (h p).child = some c0 → c0 ∈ l := by
      intro c0 hc0
      cases l with
      | nil => exact absurd ((schainIs_nil h _).mp hch) (by simp [hc0])
      | cons d ds =>
        obtain ⟨hs, -⟩ := (schainIs_cons h _ _ _).mp hch
        rw [hc0] at hs
        exact (Option.some.inj hs) ▸ List.mem_cons_self d ds
    have hchild : ((Simple.addChildNode h p newId) p).child = some newId := by
      unfold Simple.addChildNode Simple.writeS
      cases hc0 : (h p).child <;> simp
    have hpres : ∀ c, c ≠ newId →
        ((Simple.addChildNode h p newId) c).sibling_next =
          (h c).sibling_next := by
      intro c hcnew
      unfold Simple.addChildNode Simple.writeS
      cases hc0 : (h p).child <;> simp only [] <;> split_ifs <;> simp_all
    have hnewnext : ((Simple.addChildNode h p newId) newId).sibling_next =
        (h p).child := by
      unfold Simple.addChildNode Simple.writeS
      cases hc0 : (h p).child with
      | none => simp [hfp, hnext]
      | some c0 =>
        have hc0new : c0 ≠ newId := fun heq => hfresh (heq ▸ hc0mem c0 hc0)
        simp [hfp, hc0new, Ne.symm hc0new]
    refine slistChain_spec _ (newId :: l) _ fuel ?_ (by simpa using hfuel)
    rw [hchild]
    refine (schainIs_cons _ _ _ _).mpr ⟨rfl, ?_⟩
    rw [hnewnext]
    exact schainIs_preserve h _ l
      (fun c hc => hpres c (fun heq => hfresh (heq ▸ hc))) _ hch

/-- C3 witness: creating `newx` under `ROOT` (children `[a, c]`) appends it
at the tail; prepending a concrete fresh node in the simple variant puts it
at the head. -/
theorem C3_witness :
    (Win.create_item 30 exS 1 true "newx").map
        (fun pr => (pr.2, listChildren pr.1.heap 30 1)) =
      some ((none : Option PyError), some [2, 4, 5]) ∧
    Simple.listChildren
        (Simple.addChildNode
          (Simple.writeS sS.heap 4 (mkS "b" false (some 1) none none none))
          1 4) 10 1 =
      some [4, 2] := by
  constructor
  · obtain ⟨pr, hpr⟩ : ∃ pr, Win.create_item 30 exS 1 true "newx" = some pr :=
      ⟨_, rfl⟩
    have happ := (C3_insertion_order.1 30 exS 1 true "newx" [2, 4]
      ⟨rfl, rfl, rfl⟩ (by decide) (by decide) (by decide) (by decide)
      (by decide)).2 pr.1 pr.2 (by rw [hpr])
    rw [hpr]
    simp only [Option.map_some']
    rw [happ.1, happ.2.1]
    rfl
  · exact C3_insertion_order.2 _ 1 4 [2] 10 ⟨rfl, rfl⟩ (by decide)
      (by decide) (by decide) (by decide)

/-! ## C4: name uniqueness within a sibling scope -/

theorem scanOther_true (h : Heap) (node : Nat) (nm : String) :
    ∀ (l : List Nat) (s : Option Nat) (fuel : Nat),
      chainIs h s l → l.length ≤ fuel →
      (∃ c ∈ l, c ≠ node ∧ (h c).name = nm) →
      Win.rename_item.scanOther h fuel s node nm = some true := by
  intro l
  induction l with
  | nil => intro s fuel _ _ hex; simp at hex
  | cons c cs ih =>
    intro s fuel hch hlen hex
    obtain ⟨hs, hch'⟩ := (chainIs_cons h s c cs).mp hch
    subst hs
    cases fuel with
    | zero => simp at hlen
    | succ fuel =>
      rw [Win.rename_item.scanOther]
      by_cases hc : c ≠ node ∧ (h c).name = nm
      · rw [if_pos hc]
      · rw [if_neg hc]
        refine ih _ fuel hch' (by simpa using hlen) ?_
        obtain ⟨d, hd, hdprop⟩ := hex
        rcases List.mem_cons.mp hd with rfl | hd
        · exact absurd hdprop hc
        · exact ⟨d, hd, hdprop⟩

theorem scanOther_false (h : Heap) (node : Nat) (nm : String) :
    ∀ (l : List Nat) (s : Option Nat) (fuel : Nat),
      chainIs h s l → l.length ≤ fuel →
      (∀ c ∈ l, c = node ∨ (h c).name ≠ nm) →
      Win.rename_item.scanOther h fuel s node nm = some false := by
  intro l
  induction l with
  | nil =>
    intro s fuel hch _ _
    rw [(chainIs_nil h s).mp hch]
    cases fuel <;> rfl
  | cons c cs ih =>
    intro s fuel hch hlen hall
    obtain ⟨hs, hch'⟩ := (chainIs_cons h s c cs).mp hch
    subst hs
    cases fuel with
    | zero => simp at hlen
    | succ fuel =>
      rw [Win.rename_item.scanOther, if_neg ?_]
      · exact ih _ fuel hch' (by simpa using hlen)
          (fun d hd => hall d (List.mem_cons_of_mem c hd))
      · rcases hall c (by simp) with rfl | hnm
        · simp
        · simp [hnm]

/-- C4 counterexample: in the simple variant, with `current_node = x` and
`x` already containing a file `a`, creating `a` again succeeds (the
duplicate check consults `findNode` on the path from the *root*, which
does not see `x`'s children), leaving two siblings both named `a`. -/
theorem C4_counterexample :
    ((Simple.onCreateFile 20 sS "a").map fun pr =>
      (pr.2, Simple.listChildren pr.1.heap 10 1,
       (pr.1.heap 4).filename, (pr.1.heap 2).filename,
       (pr.1.heap 4).parent, (pr.1.heap 2).parent)) =
      some (none, some [4, 2], "a", "a", some 1, some 1) := by rfl

/-- C4 (amended): in the complex variant the claim holds: `create_item`
fails with the duplicate-name error if and only if an existing child of the
target parent bears the requested name (regardless of kind), and
`rename_item` fails if and only if a *different* sibling bears `new_name`
(renaming a node to its own name succeeds).  In the simple variant the
duplicate check is `findNode(path)` from the root, which does not coincide
with the parent's sibling scope and can miss duplicates. -/
theorem C4_name_uniqueness :
    (∀ (fuel : Nat) (s : Win.FMState) (p : Nat) (isdir : Bool)
       (name : String) (l : List Nat),
       chainIs s.heap (s.heap p).child l → l.length ≤ fuel → name ≠ "" →
       ((∃ c ∈ l, (s.heap c).name = name) →
         Win.create_item fuel s p isdir name = some (s, some .fileExists)) ∧
       ((∀ c ∈ l, (s.heap c).name ≠ name) →
         ∀ s' e, Win.create_item fuel s p isdir name = some (s', e) →
           e = none)) ∧
    (∀ (fuel : Nat) (s : Win.FMState) (node p : Nat) (new_name : String)
       (l : List Nat),
       (s.heap node).parent = some p →
       chainIs s.heap (s.heap p).child l → l.length ≤ fuel →
       new_name ≠ "" →
       ((∃ c ∈ l, c ≠ node ∧ (s.heap c).name = new_name) →
         Win.rename_item fuel s node new_name =
           some (s, some .fileExists)) ∧
       ((∀ c ∈ l, c = node ∨ (s.heap c).name ≠ new_name) →
         Win.rename_item fuel s node new_name =
           some ({ s with
             heap := writeNode s.heap node { s.heap node with name := new_name } },
             none))) := by
  constructor
  · intro fuel s p isdir name l hch hfuel hname
    constructor
    · intro hdup
      obtain ⟨c, hcmem, hcname⟩ := hdup
      unfold Win.create_item
      rw [if_neg hname, chainFindName_spec s.heap name l _ fuel hch hfuel]
      have hfind : (l.find? fun c => (s.heap c).name = name).isSome :=
        List.find?_isSome.mpr ⟨c, hcmem, by simpa using hcname⟩
      obtain ⟨r, hr⟩ := Option.isSome_iff_exists.mp hfind
      rw [hr]
    · intro hnodup s' e heq
      unfold Win.create_item at heq
      rw [if_neg hname, chainFindName_spec s.heap name l _ fuel hch hfuel,
        List.find?_eq_none.mpr (fun c hc => by simp [hnodup c hc])] at heq
      cases hcase : Win.create_node fuel s name isdir p with
      | none => rw [hcase] at heq; simp at heq
      | some pr =>
        rw [hcase, Option.map_some'] at heq
        injection heq with h12
        injection h12 with hA hB
        exact hB.symm
  · intro fuel s node p new_name l hp hch hfuel hname
    constructor
    · intro hdup
      unfold Win.rename_item
      rw [if_neg hname, hp]
      simp only []
      rw [scanOther_true s.heap node new_name l _ fuel hch hfuel hdup]
    · intro hok
      unfold Win.rename_item
      rw [if_neg hname, hp]
      simp only []
      rw [scanOther_false s.heap node new_name l _ fuel hch hfuel hok]

/-- C4 witness: under `ROOT` (children `a`, `c`), creating another `a`
fails, renaming `a` to `c` fails, and renaming `a` to its own name `a`
succeeds. -/
theorem C4_witness :
    Win.create_item 30 exS 1 false "a" = some (exS, some .fileExists) ∧
    Win.rename_item 30 exS 2 "c" = some (exS, some .fileExists) ∧
    Win.rename_item 30 exS 2 "a" =
      some ({ exS with
        heap := writeNode exS.heap 2 { exS.heap 2 with name := "a" } },
        none) := by
  refine ⟨?_, ?_, ?_⟩
  · exact (C4_name_uniqueness.1 30 exS 1 false "a" [2, 4] ⟨rfl, rfl, rfl⟩
      (by decide) (by decide)).1 ⟨2, by decide, by decide⟩
  · exact (C4_name_uniqueness.2 30 exS 2 1 "c" [2, 4] (by decide)
      ⟨rfl, rfl, rfl⟩ (by decide) (by decide)).1 ⟨4, by decide, by decide, by decide⟩
  · exact (C4_name_uniqueness.2 30 exS 2 1 "a" [2, 4] (by decide)
      ⟨rfl, rfl, rfl⟩ (by decide) (by decide)).2 (by decide)

/-! ## C7: path resolution and `..` -/

theorem String_mk_data (s : String) : String.mk s.data = s := by cases s; rfl

theorem pySplit_no_sep (sep : Char) :
    ∀ xs : List Char, sep ∉ xs → pySplit sep xs = [xs] := by
  intro xs
  induction xs with
  | nil => intro _; rfl
  | cons c cs ih =>
    intro hmem
    rw [pySplit,
      if_neg (show ¬(c = sep) from
        fun heq => hmem (List.mem_cons.mpr (Or.inl heq.symm))),
      ih (fun hc => hmem (List.mem_cons_of_mem c hc))]

theorem pySplit_append (sep : Char) :
    ∀ xs ys : List Char, sep ∉ xs →
      pySplit sep (xs ++ sep :: ys) = xs :: pySplit sep ys := by
  intro xs
  induction xs with
  | nil => intro ys _; rw [List.nil_append, pySplit, if_pos rfl]
  | cons c cs ih =>
    intro ys hmem
    rw [List.cons_append, pySplit,
      if_neg (show ¬(c = sep) from
        fun heq => hmem (List.mem_cons.mpr (Or.inl heq.symm))),
      ih ys (fun hc => hmem (List.mem_cons_of_mem c hc))]

theorem resolveSegs_nil (h : Heap) (path : String) (fuel cur : Nat) :
    Win.resolveSegs h path fuel cur [] = some (.ok cur) := rfl

theorem resolveSegs_name (h : Heap) (path : String) (fuel cur : Nat)
    (part : String) (rest : List String)
    (hdot : part ≠ ".") (hdd : part ≠ "..") :
    Win.resolveSegs h path fuel cur (part :: rest) =
      match chainFindName h fuel (h cur).child part with
      | none => none
      | some none => some (.error (.fileNotFound path))
      | some (some c) => Win.resolveSegs h path fuel c rest := by
  simp only [Win.resolveSegs]
  rw [if_neg hdot, if_neg hdd]

theorem resolveSegs_dotdot (h : Heap) (path : String) (fuel cur : Nat)
    (rest : List String) :
    Win.resolveSegs h path fuel cur (".." :: rest) =
      match (h cur).parent with
      | some p => Win.resolveSegs h path fuel p rest
      | none => Win.resolveSegs h path fuel cur rest := by
  simp only [Win.resolveSegs]
  rw [if_neg (by decide), if_pos trivial]

/-- C7 counterexample: in the simple variant `findNode` gives `..` no
special treatment — `/x/a` exists, yet `findNode("/x/a/..")` returns
`None` (looking for a child literally named `..`) instead of the node of
`/x`, and no `NotFoundError` is raised (the caller just gets `None`). -/
theorem C7_counterexample :
    Simple.findNode sH 0 20 "/x/a" = some (some 2) ∧
    Simple.findNode sH 0 20 "/x" = some (some 1) ∧
    Simple.findNode sH 0 20 "/x/a/.." = some none := by decide

/-- C7 (amended): the claim holds for the complex variant's
`resolve_path`: when `/a/b` resolves through existing children and the
parent pointer is consistent, `resolve("/a/b/..")` and `resolve("/a")`
return the same node (`.` segments are skipped, `..` moves to the parent
when one exists, empty segments are discarded, and a missing segment
raises `FileNotFoundError` carrying the — possibly `~`-expanded — path).
The simple variant's `findNode` instead treats `.` and `..` as ordinary
child names and returns `None` rather than raising. -/
theorem C7_resolve_dotdot (s : Win.FMState) (a b : String) (na nb : Nat)
    (fuel : Nat)
    (ha : a ≠ "" ∧ a ≠ "." ∧ a ≠ ".." ∧ '/' ∉ a.data)
    (hb : b ≠ "" ∧ b ≠ "." ∧ b ≠ ".." ∧ '/' ∉ b.data)
    (hfa : chainFindName s.heap fuel (s.heap s.root).child a = some (some na))
    (hfb : chainFindName s.heap fuel (s.heap na).child b = some (some nb))
    (hparent : (s.heap nb).parent = some na) :
    Win.resolve_path fuel s ("/" ++ a ++ "/" ++ b ++ "/..") =
      some (.ok na) ∧
    Win.resolve_path fuel s ("/" ++ a) = some (.ok na) := by
  have hsegs : ∀ (path : String),
      Win.resolveSegs s.heap path fuel s.root [a, b, ".."]
        = some (.ok na) := by
    intro path
    rw [resolveSegs_name _ _ _ _ _ _ ha.2.1 ha.2.2.1, hfa]
    simp only []
    rw [resolveSegs_name _ _ _ _ _ _ hb.2.1 hb.2.2.1, hfb]
    simp only []
    rw [resolveSegs_dotdot, hparent]
    rfl
  have hsega : ∀ (path : String),
      Win.resolveSegs s.heap path fuel s.root [a] = some (.ok na) := by
    intro path
    rw [resolveSegs_name _ _ _ _ _ _ ha.2.1 ha.2.2.1, hfa]
    rfl
  constructor
  · have hdata : ("/" ++ a ++ "/" ++ b ++ "/..").data
        = '/' :: (a.data ++ '/' :: (b.data ++ '/' :: '.' :: '.' :: [])) := by
      simp [String.data_append]
    unfold Win.resolve_path
    rw [hdata]
    simp only []
    rw [if_neg (by simp), if_pos (by simp)]
    rw [pySplit, if_pos rfl, pySplit_append '/' a.data _ ha.2.2.2,
      pySplit_append '/' b.data _ hb.2.2.2, pySplit_no_sep '/' _ (by decide)]
    simp only [List.map_cons, List.map_nil, String_mk_data]
    rw [show List.filter (fun p => decide (p ≠ ""))
        [String.mk [], a, b, String.mk ['.', '.']] = [a, b, ".."] by
      simp [List.filter, ha.1, hb.1]]
    exact hsegs _
  · have hdata : ("/" ++ a).data = '/' :: a.data := by
      simp [String.data_append]
    unfold Win.resolve_path
    rw [hdata]
    simp only []
    rw [if_neg (by simp), if_pos (by simp)]
    rw [pySplit, if_pos rfl, pySplit_no_sep '/' _ ha.2.2.2]
    simp only [List.map_cons, List.map_nil, String_mk_data]
    rw [show List.filter (fun p => decide (p ≠ "")) [String.mk [], a]
        = [a] by simp [List.filter, ha.1]]
    exact hsega _

/-- C7 witness: in the concrete tree, `/ROOT/a/..` resolves to the same
node as `/ROOT`. -/
theorem C7_witness :
    Win.resolve_path 30 exS ("/" ++ "ROOT" ++ "/" ++ "a" ++ "/..") =
      some (.ok 1) ∧
    Win.resolve_path 30 exS ("/" ++ "ROOT") = some (.ok 1) :=
  C7_resolve_dotdot exS "ROOT" "a" 1 2 30
    ⟨by decide, by decide, by decide, by decide⟩
    ⟨by decide, by decide, by decide, by decide⟩
    (by decide) (by decide) (by decide)

/-! ## C1: subtree destruction and splicing -/

theorem chainContains_true (h : Heap) (node : Nat) :
    ∀ (l : List Nat) (s : Option Nat) (fuel : Nat),
      chainIs h s l → l.length ≤ fuel → node ∈ l →
      Win.chainContains h fuel s node = some true := by
  intro l
  induction l with
  | nil => intro s fuel _ _ hmem; simp at hmem
  | cons c cs ih =>
    intro s fuel hch hlen hmem
    obtain ⟨hs, hch'⟩ := (chainIs_cons h s c cs).mp hch
    subst hs
    cases fuel with
    | zero => simp at hlen
    | succ fuel =>
      rw [Win.chainContains]
      by_cases hc : c = node
      · rw [if_pos hc]
      · rw [if_neg hc]
        rcases List.mem_cons.mp hmem with rfl | hmem
        · exact absurd rfl hc
        · exact ih _ fuel hch' (by simpa using hlen) hmem

/-- C1 counterexample: the simple variant's `deleteNode` does not clear
the deleted node's own links: after `deleteNode(x)` (where `x` has the
child `a`), `x.parent` still points at the root and `a.parent` still
points at `x` — the claim's "its own parent/sibling/child links are
cleared" is false (and the splice has happened *before* the children were
visited, since `x` is already off the root's chain while `a` was
destroyed afterwards). -/
theorem C1_counterexample :
    (Simple.deleteNode sH 20 1).map
        (fun h' => ((h' 1).parent, (h' 2).parent, (h' 0).child)) =
      some (some 0, some 1, some 3) := by decide

/-- `remove_node` is the found-check followed by the six splice/clear
statements in source order. -/
theorem remove_node_eq (h : Heap) (mcur fuel : Nat) (pidx : Win.QIndex)
    (node : Nat) :
    Win.remove_node h mcur fuel pidx node =
      (Win.chainContains h fuel
        (h (match pidx.ptr with | some p => p | none => mcur)).child
          node).map
        (fun found =>
          if !found then (h, false)
          else
            (clearNext (clearPrev (clearParent (spliceHead (spliceNext
              (splicePrev h node) node)
              (match pidx.ptr with | some p => p | none => mcur) node)
              node) node) node, true)) := by
  unfold Win.remove_node splicePrev spliceNext spliceHead clearParent
    clearPrev clearNext
  rfl

theorem splicePrev_next_pres (h : Heap) (node j : Nat)
    (hj : (h node).sibling_prev ≠ some j) :
    ((splicePrev h node) j).sibling_next = (h j).sibling_next := by
  unfold splicePrev
  cases hpv : (h node).sibling_prev with
  | none => rfl
  | some pv =>
    simp only []
    rw [writeNode_other _ _ _ _
      (fun e => hj (hpv.trans (congrArg some e.symm)))]

theorem splicePrev_at (h : Heap) (node pv : Nat)
    (hpv : (h node).sibling_prev = some pv) :
    (splicePrev h node) pv =
      { h pv with sibling_next := (h node).sibling_next } := by
  unfold splicePrev
  rw [hpv]
  simp only []
  rw [writeNode_same]

theorem splicePrev_parent_pres (h : Heap) (node j : Nat) :
    ((splicePrev h node) j).parent = (h j).parent := by
  unfold splicePrev writeNode
  cases hpv : (h node).sibling_prev <;> simp only [] <;> try split
  all_goals simp_all

theorem splicePrev_child_pres (h : Heap) (node j : Nat) :
    ((splicePrev h node) j).child = (h j).child := by
  unfold splicePrev writeNode
  cases hpv : (h node).sibling_prev <;> simp only [] <;> try split
  all_goals simp_all

theorem splicePrev_prev_pres (h : Heap) (node j : Nat) :
    ((splicePrev h node) j).sibling_prev = (h j).sibling_prev := by
  unfold splicePrev writeNode
  cases hpv : (h node).sibling_prev <;> simp only [] <;> try split
  all_goals simp_all

theorem spliceNext_prev_pres (h : Heap) (node j : Nat)
    (hj : (h node).sibling_next ≠ some j) :
    ((spliceNext h node) j).sibling_prev = (h j).sibling_prev := by
  unfold spliceNext
  cases hnx : (h node).sibling_next with
  | none => rfl
  | some nx =>
    simp only []
    rw [writeNode_other _ _ _ _
      (fun e => hj (hnx.trans (congrArg some e.symm)))]

theorem spliceNext_at (h : Heap) (node nx : Nat)
    (hnx : (h node).sibling_next = some nx) :
    (spliceNext h node) nx =
      { h nx with sibling_prev := (h node).sibling_prev } := by
  unfold spliceNext
  rw [hnx]
  simp only []
  rw [writeNode_same]

theorem spliceNext_parent_pres (h : Heap) (node j : Nat) :
    ((spliceNext h node) j).parent = (h j).parent := by
  unfold spliceNext writeNode
  cases hnx : (h node).sibling_next <;> simp only [] <;> try split
  all_goals simp_all

theorem spliceNext_child_pres (h : Heap) (node j : Nat) :
    ((spliceNext h node) j).child = (h j).child := by
  unfold spliceNext writeNode
  cases hnx : (h node).sibling_next <;> simp only [] <;> try split
  all_goals simp_all

theorem spliceNext_next_pres (h : Heap) (node j : Nat) :
    ((spliceNext h node) j).sibling_next = (h j).sibling_next := by
  unfold spliceNext writeNode
  cases hnx : (h node).sibling_next <;> simp only [] <;> try split
  all_goals simp_all

theorem spliceHead_parent_pres (h : Heap) (parent node j : Nat) :
    ((spliceHead h parent node) j).parent = (h j).parent := by
  unfold spliceHead
  split
  · by_cases hj : j = parent
    · subst hj
      rw [writeNode_same]
    · rw [writeNode_other _ _ _ _ hj]
  · rfl

theorem spliceHead_prev_pres (h : Heap) (parent node j : Nat) :
    ((spliceHead h parent node) j).sibling_prev = (h j).sibling_prev := by
  unfold spliceHead
  split
  · by_cases hj : j = parent
    · subst hj
      rw [writeNode_same]
    · rw [writeNode_other _ _ _ _ hj]
  · rfl

theorem spliceHead_next_pres (h : Heap) (parent node j : Nat) :
    ((spliceHead h parent node) j).sibling_next = (h j).sibling_next := by
  unfold spliceHead
  split
  · by_cases hj : j = parent
    · subst hj
      rw [writeNode_same]
    · rw [writeNode_other _ _ _ _ hj]
  · rfl

theorem spliceHead_child_other (h : Heap) (parent node j : Nat)
    (hj : j ≠ parent) :
    ((spliceHead h parent node) j).child = (h j).child := by
  unfold spliceHead
  split
  · rw [writeNode_other _ _ _ _ hj]
  · rfl

theorem spliceHead_at (h : Heap) (parent node : Nat)
    (hpc : (h parent).child = some node) :
    (spliceHead h parent node) parent =
      { h parent with child := (h node).sibling_next } := by
  unfold spliceHead
  rw [if_pos hpc, writeNode_same]

theorem spliceHead_not_head (h : Heap) (parent node : Nat)
    (hpc : (h parent).child ≠ some node) :
    spliceHead h parent node = h := by
  unfold spliceHead
  rw [if_neg hpc]

theorem clearParent_at (h : Heap) (node : Nat) :
    (clearParent h node) node = { h node with parent := none } := by
  unfold clearParent; rw [writeNode_same]

theorem clearParent_other (h : Heap) (node j : Nat) (hj : j ≠ node) :
    (clearParent h node) j = h j := by
  unfold clearParent; rw [writeNode_other _ _ _ _ hj]

theorem clearPrev_at (h : Heap) (node : Nat) :
    (clearPrev h node) node = { h node with sibling_prev := none } := by
  unfold clearPrev; rw [writeNode_same]

theorem clearPrev_other (h : Heap) (node j : Nat) (hj : j ≠ node) :
    (clearPrev h node) j = h j := by
  unfold clearPrev; rw [writeNode_other _ _ _ _ hj]

theorem clearNext_at (h : Heap) (node : Nat) :
    (clearNext h node) node = { h node with sibling_next := none } := by
  unfold clearNext; rw [writeNode_same]

theorem clearNext_other (h : Heap) (node j : Nat) (hj : j ≠ node) :
    (clearNext h node) j = h j := by
  unfold clearNext; rw [writeNode_other _ _ _ _ hj]

theorem clears3_parent (h : Heap) (node : Nat) :
    ((clearNext (clearPrev (clearParent h node) node) node) node).parent =
      none := by
  rw [clearNext_at, clearPrev_at, clearParent_at]

theorem clears3_prev (h : Heap) (node : Nat) :
    ((clearNext (clearPrev (clearParent h node) node) node)
        node).sibling_prev = none := by
  rw [clearNext_at, clearPrev_at]

theorem clears3_next (h : Heap) (node : Nat) :
    ((clearNext (clearPrev (clearParent h node) node) node)
        node).sibling_next = none := by
  rw [clearNext_at]

theorem clears3_child (h : Heap) (node : Nat) :
    ((clearNext (clearPrev (clearParent h node) node) node) node).child =
      (h node).child := by
  rw [clearNext_at, clearPrev_at, clearParent_at]

theorem clears3_other (h : Heap) (node j : Nat) (hj : j ≠ node) :
    (clearNext (clearPrev (clearParent h node) node) node) j = h j := by
  rw [clearNext_other _ _ _ hj, clearPrev_other _ _ _ hj,
    clearParent_other _ _ _ hj]

/-- C1 (corrected): `FileSystemModel.remove_node` performs the claimed
splice on the resolved parent's chain — `prev.sibling_next = next`,
`next.sibling_prev = prev`, and `parent.child = node.sibling_next` exactly
when `node` was the head — and clears the node's own
`parent`/`sibling_prev`/`sibling_next`, but NOT its `child` pointer.  The
recursive deletion is head-biased: deleting the head child `a` (2) of
`ROOT` in `exS2` does destroy the whole subtree (the grandchild `b` (3)
loses all links and `a.child` becomes `None`), but deleting the non-head
child `c` (4) leaves its child `d` (5) fully linked (`c.child = d`,
`d.parent = c`), because `_delete_node` hands every grandchild
`model.index(0, 0, parent_index)` — the index of the parent's FIRST child —
as its parent index; in both cases the deleted subtree is unreachable from
the root afterwards. -/
theorem C1_subtree_destruction
    (h : Heap) (mcur fuel : Nat) (pidx : Win.QIndex) (node parent : Nat)
    (l : List Nat)
    (hpar : (match pidx.ptr with | some p => p | none => mcur) = parent)
    (hch : chainIs h (h parent).child l)
    (hlen : l.length ≤ fuel)
    (hmem : node ∈ l)
    (hne : node ≠ parent)
    (hpv : (h node).sibling_prev ≠ some node)
    (hnx : (h node).sibling_next ≠ some node) :
    ((Win.remove_node h mcur fuel pidx node).isSome ∧
      ∀ pr, Win.remove_node h mcur fuel pidx node = some pr →
        pr.2 = true ∧
        (pr.1 node).parent = none ∧
        (pr.1 node).sibling_prev = none ∧
        (pr.1 node).sibling_next = none ∧
        (pr.1 node).child = (h node).child ∧
        (∀ pv, (h node).sibling_prev = some pv →
          (pr.1 pv).sibling_next = (h node).sibling_next) ∧
        (∀ nx, (h node).sibling_next = some nx →
          (pr.1 nx).sibling_prev = (h node).sibling_prev) ∧
        ((h parent).child = some node →
          (pr.1 parent).child = (h node).sibling_next)) ∧
    ((Win.delete_item 30 exS2 2 true).map (fun pr =>
        ((pr.1.heap 2).parent, (pr.1.heap 2).child,
         (pr.1.heap 3).parent, (pr.1.heap 3).child)) =
      some (none, none, none, none) ∧
     (Win.delete_item 30 exS2 2 true).map
        (fun pr => subtreeIds pr.1.heap 10 0) =
      some (some [0, 1, 4, 5])) ∧
    ((Win.delete_item 30 exS2 4 true).map (fun pr =>
        ((pr.1.heap 4).parent, (pr.1.heap 4).child,
         (pr.1.heap 5).parent)) =
      some (none, some 5, some 4) ∧
     (Win.delete_item 30 exS2 4 true).map
        (fun pr => subtreeIds pr.1.heap 10 0) =
      some (some [0, 1, 2, 3])) := by
  have hcc : Win.chainContains h fuel (h parent).child node = some true :=
    chainContains_true h node l (h parent).child fuel hch hlen hmem
  have hres : Win.remove_node h mcur fuel pidx node =
      some (clearNext (clearPrev (clearParent (spliceHead (spliceNext
        (splicePrev h node) node) parent node) node) node) node, true) := by
    rw [remove_node_eq, hpar, hcc]
    rfl
  refine ⟨⟨?_, ?_⟩, ⟨by decide, by decide⟩, ⟨by decide, by decide⟩⟩
  · rw [hres]; rfl
  · intro pr hpr
    rw [hres] at hpr
    injection hpr with hpreq
    have h1 : pr.1 = clearNext (clearPrev (clearParent (spliceHead
        (spliceNext (splicePrev h node) node) parent node) node) node)
        node := by
      rw [← hpreq]
    have h2 : pr.2 = true := by
      rw [← hpreq]
    refine ⟨h2, ?_, ?_, ?_, ?_, ?_, ?_, ?_⟩
    · rw [h1]
      exact clears3_parent _ node
    · rw [h1]
      exact clears3_prev _ node
    · rw [h1]
      exact clears3_next _ node
    · rw [h1, clears3_child, spliceHead_child_other _ parent node node hne,
        spliceNext_child_pres, splicePrev_child_pres]
    · intro pv hpveq
      have hpvne : pv ≠ node := fun e => hpv (by rw [hpveq, e])
      rw [h1, clears3_other _ node pv hpvne, spliceHead_next_pres,
        spliceNext_next_pres, splicePrev_at h node pv hpveq]
    · intro nx hnxeq
      have hnxne : nx ≠ node := fun e => hnx (by rw [hnxeq, e])
      have hAnx : ((splicePrev h node) node).sibling_next = some nx := by
        rw [splicePrev_next_pres h node node hpv]
        exact hnxeq
      rw [h1, clears3_other _ node nx hnxne, spliceHead_prev_pres,
        spliceNext_at _ node nx hAnx]
      show ((splicePrev h node) node).sibling_prev = (h node).sibling_prev
      rw [splicePrev_prev_pres]
    · intro hhead
      have hne2 : parent ≠ node := fun e => hne e.symm
      have hBc : ((spliceNext (splicePrev h node) node) parent).child =
          some node := by
        rw [spliceNext_child_pres, splicePrev_child_pres]
        exact hhead
      rw [h1, clears3_other _ node parent hne2,
        spliceHead_at _ parent node hBc]
      show ((spliceNext (splicePrev h node) node) node).sibling_next =
        (h node).sibling_next
      rw [spliceNext_next_pres, splicePrev_next_pres h node node hpv]

/-- Witness for C1: in `exH` the chain of `ROOT` (1) is `[a (2), c (4)]`,
and removing the non-head child `c` (4) through the model succeeds. -/
theorem C1_witness :
    (Win.remove_node exH 0 10 (Win.createIndex 0 0 1) 4).isSome :=
  (C1_subtree_destruction exH 0 10 (Win.createIndex 0 0 1) 4 1 [2, 4]
    rfl ⟨rfl, rfl, rfl⟩ (by decide) (by decide) (by decide) (by decide)
    (by decide)).1.1

theorem ReprF_mem (h : Heap) (p : Nat) :
    ∀ (ts : List RTree) (t : RTree), ReprF h p ts → t ∈ ts →
      (h t.rootId).parent = some p ∧ ReprT h t := by
  intro ts
  induction ts with
  | nil => intro t _ hmem; simp at hmem
  | cons u us ih =>
    intro t hF hmem
    have hF' : (h u.rootId).parent = some p ∧ ReprT h u ∧ ReprF h p us := hF
    rcases List.mem_cons.mp hmem with rfl | hmem'
    · exact ⟨hF'.1, hF'.2.1⟩
    · exact ih t hF'.2.2 hmem'

theorem size_pos (t : RTree) : 1 ≤ RTree.size t := by
  cases t with
  | node i ts => rw [RTree.size]; omega

theorem length_le_sizeL : ∀ ts : List RTree, ts.length ≤ RTree.sizeL ts := by
  intro ts
  induction ts with
  | nil => simp [RTree.sizeL]
  | cons t ts ih =>
    rw [RTree.sizeL]
    have := size_pos t
    simp only [List.length_cons]
    omega

theorem size_le_sizeL (ts : List RTree) (t : RTree) (hmem : t ∈ ts) :
    RTree.size t ≤ RTree.sizeL ts := by
  induction ts with
  | nil => simp at hmem
  | cons u us ih =>
    rw [RTree.sizeL]
    rcases List.mem_cons.mp hmem with rfl | hmem'
    · omega
    · have := ih hmem'
      omega

theorem chainFindName_found (h : Heap) :
    ∀ (l : List Nat) (s : Option Nat) (fuel : Nat),
      chainIs h s l → l.length ≤ fuel →
      ((l.map fun c => (h c).name)).Nodup →
      ∀ x ∈ l, chainFindName h fuel s ((h x).name) = some (some x) := by
  intro l
  induction l with
  | nil => intro s fuel _ _ _ x hx; simp at hx
  | cons c cs ih =>
    intro s fuel hch hlen hnd x hx
    obtain ⟨hs, hch'⟩ := (chainIs_cons h s c cs).mp hch
    subst hs
    simp only [List.map_cons] at hnd
    cases fuel with
    | zero => simp at hlen
    | succ fuel =>
      rw [chainFindName]
      rcases List.mem_cons.mp hx with rfl | hx'
      · rw [if_pos rfl]
      · have hne : (h c).name ≠ (h x).name := by
          intro e
          exact (List.nodup_cons.mp hnd).1
            (by rw [e]; exact List.mem_map_of_mem _ hx')
        rw [if_neg hne]
        exact ih (h c).sibling_next fuel hch' (by simp at hlen; omega)
          (List.nodup_cons.mp hnd).2 x hx'

theorem climb_root (h : Heap) (i : Nat) (hp : (h i).parent = none) :
    ∀ fuel, Win.full_path.climb h fuel i = some [] := by
  intro fuel
  cases fuel with
  | zero => rw [Win.full_path.climb, hp]
  | succ f => rw [Win.full_path.climb, hp]

theorem climb_loc (h : Heap) (T : RTree) (n : Nat) (ns : List String)
    (hloc : Located h T n ns) :
    ReprT h T → ∀ (fuel0 : Nat) (r : List String),
      Win.full_path.climb h fuel0 T.rootId = some r →
      Win.full_path.climb h (ns.length + fuel0) n = some (ns.reverse ++ r) := by
  induction hloc with
  | here t =>
    intro _ fuel0 r hg
    simpa using hg
  | @child i ts t n rest hmem hloc ih =>
    intro hrepT fuel0 r hg
    have hrepT' : chainIs h (h i).child (ts.map RTree.rootId) ∧
        (ts.map fun u => (h u.rootId).name).Nodup ∧ ReprF h i ts := hrepT
    obtain ⟨hpar, hrept⟩ := ReprF_mem h i ts t hrepT'.2.2 hmem
    have hg' : Win.full_path.climb h fuel0 i = some r := hg
    have hstep : Win.full_path.climb h (fuel0 + 1) t.rootId =
        some ((h t.rootId).name :: r) := by
      rw [Win.full_path.climb, hpar]
      simp only []
      rw [hg']
      rfl
    have hmain := ih hrept (fuel0 + 1) ((h t.rootId).name :: r) hstep
    have hlen : ((h t.rootId).name :: rest).length + fuel0 =
        rest.length + (fuel0 + 1) := by
      simp only [List.length_cons]
      omega
    have hlist : ((h t.rootId).name :: rest).reverse ++ r =
        rest.reverse ++ ((h t.rootId).name :: r) := by
      simp
    rw [hlen, hlist]
    exact hmain

theorem resolveSegs_loc (h : Heap) (path : String) (fuel : Nat)
    (T : RTree) (n : Nat) (ns : List String) (hloc : Located h T n ns) :
    ReprT h T → (∀ nm ∈ ns, nm ≠ "." ∧ nm ≠ "..") →
    RTree.size T ≤ fuel →
    Win.resolveSegs h path fuel T.rootId ns = some (.ok n) := by
  induction hloc with
  | here t => intro _ _ _; exact resolveSegs_nil h path fuel t.rootId
  | @child i ts t n rest hmem hloc ih =>
    intro hrepT hnames hfuel
    have hrepT' : chainIs h (h i).child (ts.map RTree.rootId) ∧
        (ts.map fun u => (h u.rootId).name).Nodup ∧ ReprF h i ts := hrepT
    obtain ⟨hpar, hrept⟩ := ReprF_mem h i ts t hrepT'.2.2 hmem
    have hsz : RTree.size (RTree.node i ts) = 1 + RTree.sizeL ts := rfl
    have hlenle : (ts.map RTree.rootId).length ≤ fuel := by
      have h1 := length_le_sizeL ts
      simp only [List.length_map]
      omega
    have hnd : ((ts.map RTree.rootId).map fun c => (h c).name).Nodup := by
      rw [List.map_map]
      exact hrepT'.2.1
    have hnm := hnames _ (List.mem_cons_self _ _)
    have hfind : chainFindName h fuel (h i).child ((h t.rootId).name) =
        some (some t.rootId) :=
      chainFindName_found h (ts.map RTree.rootId) (h i).child fuel
        hrepT'.1 hlenle hnd t.rootId (List.mem_map_of_mem _ hmem)
    show Win.resolveSegs h path fuel i ((h t.rootId).name :: rest) =
      some (.ok n)
    rw [resolveSegs_name h path fuel i _ rest hnm.1 hnm.2, hfind]
    simp only []
    exact ih hrept (fun u hu => hnames u (List.mem_cons_of_mem _ hu))
      (by have h2 := size_le_sizeL ts t hmem; omega)

theorem pySplit_pyJoin (sep : Char) :
    ∀ L : List (List Char), L ≠ [] → (∀ x ∈ L, sep ∉ x) →
      pySplit sep (pyJoin sep L) = L := by
  intro L
  induction L with
  | nil => intro hne _; exact absurd rfl hne
  | cons x xs ih =>
    intro _ hfree
    cases xs with
    | nil =>
      rw [pyJoin]
      exact pySplit_no_sep sep x (hfree x (by simp))
    | cons y ys =>
      show pySplit sep (x ++ sep :: pyJoin sep (y :: ys)) = x :: y :: ys
      rw [pySplit_append sep x _ (hfree x (by simp)),
        ih (fun he => List.noConfusion he)
          (fun z hz => hfree z (List.mem_cons_of_mem _ hz))]

/-- C10: for every node reachable from the represented root along names
that are non-empty, not `.`/`..` and `/`-free, `resolve_path` applied to
the string produced by `full_path` returns the same node. -/
theorem C10_roundtrip (s : Win.FMState) (T : RTree) (n : Nat)
    (ns : List String) (fuel : Nat)
    (hrep : ReprT s.heap T)
    (hroot : T.rootId = s.root)
    (hrp : (s.heap s.root).parent = none)
    (hloc : Located s.heap T n ns)
    (hnames : ∀ nm ∈ ns, nm ≠ "" ∧ nm ≠ "." ∧ nm ≠ ".." ∧ '/' ∉ nm.data)
    (hfuel : RTree.size T ≤ fuel) :
    (Win.full_path ns.length s.heap n).isSome ∧
    ∀ path, Win.full_path ns.length s.heap n = some path →
      Win.resolve_path fuel s path = some (.ok n) := by
  have hclimb0 : Win.full_path.climb s.heap 0 T.rootId = some [] := by
    rw [hroot]
    exact climb_root s.heap s.root hrp 0
  have hclimb := climb_loc s.heap T n ns hloc hrep 0 [] hclimb0
  rw [List.append_nil] at hclimb
  cases ns with
  | nil =>
    have hfp : Win.full_path ([] : List String).length s.heap n =
        some "/" := by
      unfold Win.full_path
      rw [show Win.full_path.climb s.heap ([] : List String).length n =
        some [] from hclimb]
      rfl
    cases hloc with
    | here =>
      refine ⟨?_, ?_⟩
      · rw [hfp]; rfl
      · intro path hpath
        have h2 : some "/" = some path := hfp.symm.trans hpath
        injection h2 with h2
        subst h2
        rw [hroot]
        rfl
  | cons nm rest =>
    have hfp : Win.full_path (nm :: rest).length s.heap n =
        some (String.mk ('/' :: pyJoin '/' ((nm :: rest).map String.data))) := by
      unfold Win.full_path
      rw [show Win.full_path.climb s.heap (nm :: rest).length n =
        some ((nm :: rest).reverse) from hclimb]
      rw [Option.map_some']
      rw [if_pos (by simp), List.reverse_reverse]
    refine ⟨?_, ?_⟩
    · rw [hfp]; rfl
    · intro path hpath
      have h2 : some (String.mk ('/' :: pyJoin '/'
          ((nm :: rest).map String.data))) = some path := hfp.symm.trans hpath
      injection h2 with h2
      subst h2
      have hfree : ∀ x ∈ (nm :: rest).map String.data, '/' ∉ x := by
        intro x hx
        obtain ⟨u, hu, rfl⟩ := List.mem_map.mp hx
        exact (hnames u hu).2.2.2
      have hsplit : pySplit '/' ('/' :: pyJoin '/'
          ((nm :: rest).map String.data)) =
          ([] : List Char) :: (nm :: rest).map String.data := by
        have h0 : ('/' :: pyJoin '/' ((nm :: rest).map String.data)) =
            [] ++ '/' :: pyJoin '/' ((nm :: rest).map String.data) := rfl
        rw [h0, pySplit_append '/' [] _ (by simp),
          pySplit_pyJoin '/' _ (by simp) hfree]
      have hr : Win.resolve_path fuel s
          (String.mk ('/' :: pyJoin '/' ((nm :: rest).map String.data))) =
          Win.resolveSegs s.heap
            (String.mk ('/' :: pyJoin '/' ((nm :: rest).map String.data)))
            fuel s.root
            (((pySplit '/' ('/' :: pyJoin '/'
              ((nm :: rest).map String.data))).map
                (fun l => String.mk l)).filter (fun p => p ≠ "")) := rfl
      have hmapid : ((nm :: rest).map String.data).map
          (fun l => String.mk l) = nm :: rest := by
        rw [List.map_map]
        conv_rhs => rw [← List.map_id (nm :: rest)]
        exact List.map_congr_left (fun u _ => String_mk_data u)
      have hparts : ((([] : List Char) :: (nm :: rest).map String.data).map
          (fun l => String.mk l)).filter (fun p => p ≠ "") = nm :: rest := by
        rw [List.map_cons, hmapid]
        exact List.filter_eq_self.mpr
          (fun u hu => decide_eq_true (hnames u hu).1)
      rw [hr, hsplit, hparts, ← hroot]
      exact resolveSegs_loc s.heap _ fuel T n (nm :: rest) hloc hrep
        (fun u hu => ⟨(hnames u hu).2.1, (hnames u hu).2.2.1⟩) hfuel

/-- Witness for C10 on `exS`: the node `b` (3) at `/ROOT/a/b`. -/
theorem C10_witness :
    Win.resolve_path 5 exS "/ROOT/a/b" = some (.ok 3) :=
  (C10_roundtrip exS
    (RTree.node 0 [RTree.node 1 [RTree.node 2 [RTree.node 3 []],
      RTree.node 4 []]])
    3 ["ROOT", "a", "b"] 5
    ⟨⟨rfl, rfl⟩, by decide, rfl,
      ⟨⟨rfl, rfl, rfl⟩, by decide, rfl,
        ⟨⟨rfl, rfl⟩, by decide, rfl, ⟨rfl, by decide, trivial⟩, trivial⟩,
        rfl, ⟨rfl, by decide, trivial⟩, trivial⟩,
      trivial⟩
    rfl rfl
    (Located.child (List.Mem.head _)
      (Located.child (List.Mem.head _)
        (Located.child (List.Mem.head _)
          (Located.here (RTree.node 3 [])))))
    (by decide) (by decide)).2 "/ROOT/a/b" (by decide)
